import Mathlib

/-!
Verification development for the roster-reconciliation code of the
google-classroom repository.

The definitions below are a shallow embedding of
`apps/web/src/lib/rosterCompare.ts` (the web-side reconciliation engine)
and `extensions/frontline-teams/compare.js` (the extension-side name
matcher).  JavaScript strings are modelled as Lean `String` / `List Char`;
JavaScript's `Array.prototype.sort` (stable since ES2019) is modelled by a
stable insertion sort; `String.prototype.localeCompare` is modelled as
code-unit lexicographic comparison; `parseInt(s, 10)` is modelled
faithfully including its `NaN` result on an empty digit prefix.
-/

set_option maxRecDepth 4000

/-! ## JavaScript string primitives -/

/-- The whitespace class used by JavaScript's `\s`, `trim` (ASCII part;
the inputs handled by this code contain no exotic Unicode spaces). -/
def isJsWhitespace (c : Char) : Bool :=
  c = ' ' || c = '\t' || c = '\n' || c = '\r' || c = '\x0b' || c = '\x0c'

/-- `s.trim()` on a character list: drop leading and trailing whitespace. -/
def jsTrim (l : List Char) : List Char :=
  ((l.dropWhile isJsWhitespace).reverse.dropWhile isJsWhitespace).reverse

/-- `s.replace(/\s+/g, ' ')`: collapse every maximal whitespace run to a
single space. -/
def collapseWs : List Char → List Char
  | [] => []
  | [c] => if isJsWhitespace c then [' '] else [c]
  | c :: d :: cs =>
    if isJsWhitespace c && isJsWhitespace d then collapseWs (d :: cs)
    else (if isJsWhitespace c then ' ' else c) :: collapseWs (d :: cs)

/-- `s.split(sep)` for a one-character separator: always returns at least
one (possibly empty) field, exactly like JavaScript. -/
def splitOnChar (sep : Char) : List Char → List (List Char)
  | [] => [[]]
  | c :: cs =>
    if c = sep then [] :: splitOnChar sep cs
    else
      match splitOnChar sep cs with
      | [] => [[c]]
      | g :: gs => (c :: g) :: gs

/-- `s.toLowerCase()` (ASCII case mapping, as used by these rosters). -/
def jsLower (l : List Char) : List Char := l.map Char.toLower

/-- Model of the default `localeCompare(a, b) <= 0`: code-unit
lexicographic comparison of the two strings. -/
def charListLe : List Char → List Char → Bool
  | [], _ => true
  | _ :: _, [] => false
  | a :: as, b :: bs =>
    if a < b then true
    else if b < a then false
    else charListLe as bs

/-- Stable insertion step: place `x` before the first element `y` with
`le x y` (an element never overtakes an equal element already placed). -/
def insertSorted (le : α → α → Bool) (x : α) : List α → List α
  | [] => [x]
  | y :: ys => if le x y then x :: y :: ys else y :: insertSorted le x ys

/-- Model of JavaScript's stable `Array.prototype.sort` under the total
preorder `le`. -/
def jsSort (le : α → α → Bool) (l : List α) : List α :=
  l.foldr (insertSorted le) []

/-- Numeric value of a decimal digit list (most significant first). -/
def digitsToNat (l : List Char) : Nat :=
  l.foldl (fun n c => 10 * n + (c.toNat - '0'.toNat)) 0

/-- `parseInt(s, 10)`: skip leading whitespace, optional sign, then the
maximal digit prefix; `none` (JavaScript `NaN`) when no digit follows.
Returned as (sign, magnitude).  The magnitude is kept exact, which agrees
with the program only while the value fits an IEEE-754 double exactly
(below 2^53 — e.g. at most 15 decimal digits); beyond that JavaScript
rounds to the nearest double.  Theorems quantifying over digit strings
are therefore restricted to that range. -/
def jsParseIntBase10 (s : String) : Option (Bool × Nat) :=
  let cs := s.toList.dropWhile isJsWhitespace
  let neg : Bool := cs.head? = some '-'
  let rest := if cs.head? = some '-' ∨ cs.head? = some '+' then cs.tail else cs
  let ds := rest.takeWhile Char.isDigit
  if ds.isEmpty then none
  else some (neg, digitsToNat ds)

/-- `(n).toString()` for the integer produced by `parseInt` (JavaScript
renders `-0` as `"0"`).  Plain decimal rendering, which agrees with the
program for integral doubles that are exact and below 10^21 (in
particular all values below 2^53); larger values print in exponential or
shortest-round-trip form in JavaScript, outside the range any theorem
here quantifies over. -/
def jsIntToString (neg : Bool) (n : Nat) : String :=
  if neg && n != 0 then "-" ++ Nat.repr n else Nat.repr n

/-! ## Data model (from `apps/web/src/types`, as constructed/consumed in
`rosterCompare.ts`) -/

structure FrontlineStudent where
  studentName : String
  course : String
  sect : String      -- `section` in the source; renamed (Lean keyword)
  period : String
  day : String
  teacher : String
  deriving Repr, DecidableEq

structure Course where
  id : String
  name : String
  deriving Repr, DecidableEq

/-- A Google Classroom student; `fullName` models `profile.name.fullName`. -/
structure Student where
  fullName : String
  deriving Repr, DecidableEq

structure ComparisonResult where
  period : String
  courseName : String
  gcCourseId : Option String := none
  gcCourseName : Option String := none
  frontlineStudents : List String
  gcStudents : List String
  missingFromGC : List String
  extraInGC : List String
  matched : List String
  deriving Repr, DecidableEq

structure RosterSummary where
  totalFrontline : Nat
  totalGC : Nat
  totalMissing : Nat
  totalExtra : Nat
  totalMatched : Nat
  deriving Repr, DecidableEq

structure RosterDiff where
  comparisons : List ComparisonResult
  unmatchedPeriods : List String
  summary : RosterSummary
  deriving Repr, DecidableEq

/-! ## `normalizeName` / `namesMatch` (rosterCompare.ts lines 108-149) -/

/-- `normalizeName` from rosterCompare.ts: trim, collapse whitespace; on a
comma, split into `(last, firstAndMiddle)`, keep only the first token of
`firstAndMiddle`, rebuild as `"first last"`; lowercase the result. -/
def normalizeName (name : String) : String :=
  if name = "" then ""
  else
    let normalized := collapseWs (jsTrim name.toList)
    let normalized :=
      if normalized.contains ',' then
        let parts := (splitOnChar ',' normalized).map jsTrim
        let last := parts.headD []
        let first := parts.getD 1 []
        let firstName := (splitOnChar ' ' first).headD []
        firstName ++ ' ' :: last
      else normalized
    String.mk (jsLower normalized)

/-- `namesMatch` from rosterCompare.ts: equal normalized forms, or (when
both normalized forms have at least two space-separated parts) equal first
and last parts. -/
def namesMatch (name1 name2 : String) : Bool :=
  let n1 := normalizeName name1
  let n2 := normalizeName name2
  if n1 = n2 then true
  else
    let parts1 := splitOnChar ' ' n1.toList
    let parts2 := splitOnChar ' ' n2.toList
    if parts1.length ≥ 2 && parts2.length ≥ 2 then
      decide (parts1.headD [] = parts2.headD []) &&
      decide (parts1.getLastD [] = parts2.getLastD [])
    else false

/-! ## Period extraction (rosterCompare.ts lines 155-185) -/

/-- JavaScript's `\w` word-character class `[A-Za-z0-9_]`. -/
def isWordChar (c : Char) : Bool := c.isAlphanum || c = '_'

/-- Right word boundary `\b` just after a digit run: next char (if any)
is not a word character. -/
def boundaryRight : List Char → Bool
  | [] => true
  | c :: _ => !(isWordChar c)

/-- Left word boundary `\b` before a word character at the current
position, given the previous character (none at string start). -/
def boundaryLeft : Option Char → Bool
  | none => true
  | some c => !(isWordChar c)

/-- Scan positions left to right (as a JavaScript regex search does),
handing the matcher the previous character for `\b` tests. -/
def scanFrom (m : Option Char → List Char → Option (List Char)) :
    Option Char → List Char → Option (List Char)
  | _, [] => none
  | prev, c :: cs =>
    match m prev (c :: cs) with
    | some r => some r
    | none => scanFrom m (some c) cs

/-- `/^(\d+)[\s-]/`: leading digits followed by whitespace or a hyphen
(anchored at the start). -/
def matchLeadingNum (cs : List Char) : Option (List Char) :=
  let ds := cs.takeWhile Char.isDigit
  if ds.isEmpty then none
  else
    match cs.drop ds.length with
    | c :: _ => if isJsWhitespace c || c = '-' then some ds else none
    | [] => none

/-- `/period\s*(\d+)/i` attempted at the current position. -/
def periodPatAt (_ : Option Char) (cs : List Char) : Option (List Char) :=
  if jsLower (cs.take 6) = ['p', 'e', 'r', 'i', 'o', 'd'] then
    let rest := (cs.drop 6).dropWhile isJsWhitespace
    let ds := rest.takeWhile Char.isDigit
    if ds.isEmpty then none else some ds
  else none

/-- `/\((\d+)\)/` attempted at the current position. -/
def parenNumAt (_ : Option Char) (cs : List Char) : Option (List Char) :=
  match cs with
  | '(' :: t =>
    let ds := t.takeWhile Char.isDigit
    if ds.isEmpty then none
    else
      match t.drop ds.length with
      | ')' :: _ => some ds
      | _ => none
  | _ => none

/-- `/\bp(\d+)\b/i` attempted at the current position. -/
def pNumAt (prev : Option Char) (cs : List Char) : Option (List Char) :=
  match cs with
  | c :: t =>
    if boundaryLeft prev && c.toLower = 'p' then
      let ds := t.takeWhile Char.isDigit
      if ds.isEmpty then none
      else if boundaryRight (t.drop ds.length) then some ds else none
    else none
  | [] => none

/-- `/\bpd\s*(\d+)\b/i` attempted at the current position. -/
def pdNumAt (prev : Option Char) (cs : List Char) : Option (List Char) :=
  if boundaryLeft prev && jsLower (cs.take 2) = ['p', 'd'] then
    let rest := (cs.drop 2).dropWhile isJsWhitespace
    let ds := rest.takeWhile Char.isDigit
    if ds.isEmpty then none
    else if boundaryRight (rest.drop ds.length) then some ds else none
  else none

/-- `extractPeriodFromGCName` from rosterCompare.ts: try the five
patterns in source order, returning the capture of the first that
matches; `none` models the JavaScript `null`. -/
def extractPeriodFromGCName (name : String) : Option String :=
  if name = "" then none
  else
    let cs := name.toList
    match matchLeadingNum cs with
    | some ds => some (String.mk ds)
    | none =>
    match scanFrom periodPatAt none cs with
    | some ds => some (String.mk ds)
    | none =>
    match scanFrom parenNumAt none cs with
    | some ds => some (String.mk ds)
    | none =>
    match scanFrom pNumAt none cs with
    | some ds => some (String.mk ds)
    | none =>
    match scanFrom pdNumAt none cs with
    | some ds => some (String.mk ds)
    | none => none

/-- `normalizePeriod` from rosterCompare.ts:
`parseInt(period.replace(/^0+/, ''), 10).toString()`. -/
def normalizePeriod (period : String) : String :=
  match jsParseIntBase10 (String.mk (period.toList.dropWhile (· = '0'))) with
  | none => "NaN"
  | some sn => jsIntToString sn.1 sn.2

/-! ## Period grouping and course matching (rosterCompare.ts 190-260) -/

/-- `findMatchingGCCourse`: first course whose extracted, normalized
period equals the normalized target period.  (The JavaScript truthiness
test `gcPeriod && ...` is exact here: a `(\d+)` capture is never empty.) -/
def findMatchingGCCourse (period : String) (gcCourses : List Course) :
    Option Course :=
  let normalizedPeriod := normalizePeriod period
  gcCourses.find? fun course =>
    match extractPeriodFromGCName course.name with
    | some gcPeriod => normalizePeriod gcPeriod = normalizedPeriod
    | none => false

/-- Comparator `(a, b) => parseInt(a) - parseInt(b)` as a `le`; by the
ECMAScript sort spec a `NaN` comparator value is coerced to `+0`, i.e.
"equal", which this `le` renders as `true` both ways. -/
def periodNumLe (a b : String) : Bool :=
  match jsParseIntBase10 a, jsParseIntBase10 b with
  | some x, some y =>
    decide ((if x.1 then -(x.2 : Int) else x.2) ≤ (if y.1 then -(y.2 : Int) else y.2))
  | _, _ => true

/-- `getUniquePeriods`: `Set` insertion order (first occurrence) of the
normalized periods, then a numeric sort. -/
def getUniquePeriods (students : List FrontlineStudent) : List String :=
  let periods := students.foldl
    (fun acc s =>
      let np := normalizePeriod s.period
      if np ∈ acc then acc else acc ++ [np]) []
  jsSort periodNumLe periods

/-- The filter-and-deduplicate scan inside `getStudentsForPeriod`:
keep entries of the normalized period whose normalized student name was
not seen before (first occurrence wins). -/
def dedupScan (np : String) : List FrontlineStudent → List String → List FrontlineStudent
  | [], _ => []
  | s :: ss, seen =>
    if normalizePeriod s.period = np then
      let key := normalizeName s.studentName
      if key ∈ seen then dedupScan np ss seen
      else s :: dedupScan np ss (key :: seen)
    else dedupScan np ss seen

/-- `le` on students by raw `studentName`, modelling
`(a, b) => a.studentName.localeCompare(b.studentName)`. -/
def studentNameLe (a b : FrontlineStudent) : Bool :=
  charListLe a.studentName.toList b.studentName.toList

/-- `getStudentsForPeriod`: filter to the period, deduplicate by
normalized name (first occurrence retained), then sort by the raw
student name. -/
def getStudentsForPeriod (students : List FrontlineStudent) (period : String) :
    List FrontlineStudent :=
  jsSort studentNameLe (dedupScan (normalizePeriod period) students [])

/-- One step of the `Map<string, number>` count: bump the key in place,
or append it (JavaScript `Map` iterates in insertion order). -/
def incr : List (String × Nat) → String → List (String × Nat)
  | [], c => [(c, 1)]
  | (k, n) :: t, c => if k = c then (k, n + 1) :: t else (k, n) :: incr t c

/-- The insertion-ordered course counts of `getCourseNameForPeriod`. -/
def courseCounts (g : List FrontlineStudent) : List (String × Nat) :=
  g.foldl (fun m s => incr m s.course) []

/-- The `maxCourse`/`maxCount` scan of `getCourseNameForPeriod`: starting
from `("", 0)`, take each entry whose count strictly exceeds the best so
far. -/
def bestCourse (counts : List (String × Nat)) : String × Nat :=
  counts.foldl (fun best p => if p.2 > best.2 then p else best) ("", 0)

/-- `getCourseNameForPeriod`: most common `course` value of the period's
deduplicated group (all labels participate, the empty string included);
ties keep the earlier-inserted label. -/
def getCourseNameForPeriod (students : List FrontlineStudent) (period : String) :
    String :=
  (bestCourse (courseCounts (getStudentsForPeriod students period))).1

/-! ## The reconciliation engine (rosterCompare.ts 265-404) -/

/-- The body of the per-period loop of `compareRosters`.  The push-based
missing/matched/extra loops of the source are rendered as order-preserving
filters (an element goes to `matched` exactly when some platform name
matches it, etc.). -/
def comparisonFor (frontlineStudents : List FrontlineStudent)
    (gcCourses : List Course) (gcStudentsByCourse : String → Option (List Student))
    (period : String) : ComparisonResult :=
  let flStudents := getStudentsForPeriod frontlineStudents period
  let courseName := getCourseNameForPeriod frontlineStudents period
  let flNames := flStudents.map (·.studentName)
  match findMatchingGCCourse period gcCourses with
  | none =>
    { period := period, courseName := courseName,
      frontlineStudents := flNames, gcStudents := [],
      missingFromGC := flNames, extraInGC := [], matched := [] }
  | some gcCourse =>
    let gcStudents := (gcStudentsByCourse gcCourse.id).getD []
    let gcNames := gcStudents.map (·.fullName)
    let matched := flNames.filter fun flName => gcNames.any fun gcName => namesMatch flName gcName
    let missing := flNames.filter fun flName => !(gcNames.any fun gcName => namesMatch flName gcName)
    let extra := gcNames.filter fun gcName => !(flNames.any fun flName => namesMatch flName gcName)
    { period := period, courseName := courseName,
      gcCourseId := some gcCourse.id, gcCourseName := some gcCourse.name,
      frontlineStudents := flNames, gcStudents := gcNames,
      missingFromGC := missing, extraInGC := extra, matched := matched }

/-- Comparator of the final `comparisons.sort`. -/
def comparisonNumLe (a b : ComparisonResult) : Bool :=
  periodNumLe a.period b.period

/-- `compareRosters`.  The running totals of the source loop equal, branch
by branch, the sums of the corresponding field lengths over the produced
comparisons (the unmatched branch adds `flNames.length` to
`totalFrontline`/`totalMissing` and nothing else, and its `gcStudents`,
`extraInGC`, `matched` fields are all empty), so the summary is rendered
as those sums. -/
def compareRosters (frontlineStudents : List FrontlineStudent)
    (gcCourses : List Course)
    (gcStudentsByCourse : String → Option (List Student)) : RosterDiff :=
  let periods := getUniquePeriods frontlineStudents
  let comparisons := periods.map
    (comparisonFor frontlineStudents gcCourses gcStudentsByCourse)
  { comparisons := jsSort comparisonNumLe comparisons
    unmatchedPeriods := periods.filter fun p => (findMatchingGCCourse p gcCourses).isNone
    summary :=
      { totalFrontline := (comparisons.map (·.frontlineStudents.length)).sum
        totalGC := (comparisons.map (·.gcStudents.length)).sum
        totalMissing := (comparisons.map (·.missingFromGC.length)).sum
        totalExtra := (comparisons.map (·.extraInGC.length)).sum
        totalMatched := (comparisons.map (·.matched.length)).sum } }

/-- `compareForPeriod`: the single-period variant fed a platform student
list directly. -/
def compareForPeriod (frontlineStudents : List FrontlineStudent)
    (period : String) (gcStudents : List Student) : ComparisonResult :=
  let flStudents := getStudentsForPeriod frontlineStudents period
  let courseName := getCourseNameForPeriod frontlineStudents period
  let flNames := flStudents.map (·.studentName)
  let gcNames := gcStudents.map (·.fullName)
  let matched := flNames.filter fun flName => gcNames.any fun gcName => namesMatch flName gcName
  let missing := flNames.filter fun flName => !(gcNames.any fun gcName => namesMatch flName gcName)
  let extra := gcNames.filter fun gcName => !(flNames.any fun flName => namesMatch flName gcName)
  { period := period, courseName := courseName,
    frontlineStudents := flNames, gcStudents := gcNames,
    missingFromGC := missing, extraInGC := extra, matched := matched }

/-! ## Extension-side matcher (`extensions/frontline-teams/compare.js`) -/

namespace RosterCompare

/-- `RosterCompare.normalizeName` from compare.js:
lowercase, trim, collapse whitespace, then rewrite every `,\s*` to `", "`.
The comma rewrite is fuelled by the list length (each step consumes at
least one character), which is always sufficient. -/
def replaceCommaF : Nat → List Char → List Char
  | _, [] => []
  | 0, l => l
  | fuel + 1, ',' :: cs => ',' :: ' ' :: replaceCommaF fuel (cs.dropWhile isJsWhitespace)
  | fuel + 1, c :: cs => c :: replaceCommaF fuel cs

def replaceComma (l : List Char) : List Char := replaceCommaF l.length l

def normalizeName (name : String) : String :=
  if name = "" then ""
  else String.mk (replaceComma (collapseWs (jsTrim (jsLower name.toList))))

/-- The `{first, last, full}` record built by `parseName`. -/
structure ParsedName where
  first : String
  last : String
  full : String
  deriving Repr, DecidableEq

/-- `RosterCompare.parseName` from compare.js: on a comma, `(last, first)`
are the trimmed halves (the whole post-comma remainder becomes `first`);
otherwise the first space-token is `first` and the rejoined rest is
`last`. -/
def parseName (name : String) : ParsedName :=
  let normalized := normalizeName name
  if normalized.toList.contains ',' then
    let parts := (splitOnChar ',' normalized.toList).map jsTrim
    let last := parts.headD []
    let first := parts.getD 1 []
    ⟨String.mk first, String.mk last, String.mk (first ++ ' ' :: last)⟩
  else
    let parts := splitOnChar ' ' normalized.toList
    ⟨String.mk (parts.headD []),
     String.mk (List.intercalate [' '] parts.tail),
     normalized⟩

/-- `RosterCompare.namesMatch` from compare.js: equal full forms, equal
first/last pairs, or the swapped first/last pair. -/
def namesMatch (name1 name2 : String) : Bool :=
  let n1 := parseName name1
  let n2 := parseName name2
  if n1.full = n2.full then true
  else if n1.first = n2.first && n1.last = n2.last then true
  else if n1.first = n2.last && n1.last = n2.first then true
  else false

end RosterCompare

/-! ## Spec-side reference definition (for the refinement comparison of
the primary-course-label policy) -/

/-- The primary course label as the SPEC words it: a majority vote over
the NON-EMPTY `course` labels of the period's deduplicated group (empty
labels do not participate), ties broken by the first-encountered label
during the count scan. -/
def primaryCourseLabelSpec (students : List FrontlineStudent) (period : String) :
    String :=
  let g := getStudentsForPeriod students period
  let counts := g.foldl (fun m s => if s.course = "" then m else incr m s.course) []
  (bestCourse counts).1

/-! ## Statement vocabulary -/

/-- Number of entries of `g` carrying exactly the course label `c`. -/
def countC (g : List FrontlineStudent) (c : String) : Nat :=
  (g.filter fun s => s.course = c).length

/-- Number of occurrences of `c` in a list of strings. -/
def countS (l : List String) (c : String) : Nat :=
  (l.filter fun x => x = c).length

/-- The course-count fold of `getCourseNameForPeriod`, abstracted to the
list of course labels it scans. -/
def strCounts (l : List String) : List (String × Nat) :=
  l.foldl (fun m c => incr m c) []

/-- Value stored for key `c` in an association list (0 when absent). -/
def lookupD (m : List (String × Nat)) (c : String) : Nat :=
  ((m.find? fun p => p.1 = c).map Prod.snd).getD 0

/-- Index of the first occurrence of `c` (list length when absent). -/
def firstIdx (c : String) : List String → Nat
  | [] => 0
  | x :: xs => if x = c then 0 else firstIdx c xs + 1

/-- A plain name token: non-empty, containing no JavaScript whitespace
and no comma. -/
def plainToken (s : String) : Bool :=
  !s.toList.isEmpty && s.toList.all fun c => !(isJsWhitespace c) && c != ','

/-! ## Concrete inputs used in the examples below -/

def mkStudent (n c p : String) : FrontlineStudent :=
  { studentName := n, course := c, sect := "", period := p, day := "", teacher := "" }

def exampleFl1 : List FrontlineStudent :=
  [mkStudent "john a smith" "Chem" "1", mkStudent "john b smith" "Chem" "1"]

def exampleCourses1 : List Course := [{ id := "c1", name := "1 Chem" }]

def exampleMap1 : String → Option (List Student) :=
  fun i => if i = "c1" then some [{ fullName := "john smith" }] else none

def exampleFl2 : List FrontlineStudent :=
  [mkStudent "bob" "C" "1", mkStudent "alice" "C" "1"]

def exampleFl5 : List FrontlineStudent :=
  [mkStudent "alice" "" "1", mkStudent "bob" "" "1", mkStudent "carol" "X" "1"]

def exampleFl6 : List FrontlineStudent := [mkStudent "amy" "Alg" "7"]

/-! ## General lemmas about the JavaScript-primitive models -/

theorem insertSorted_perm (le : α → α → Bool) (x : α) (l : List α) :
    (insertSorted le x l).Perm (x :: l) := by
  induction l with
  | nil => simp [insertSorted]
  | cons y ys ih =>
    by_cases h : le x y
    · simp [insertSorted, h]
    · simp only [insertSorted, if_neg h]
      exact (ih.cons y).trans (List.Perm.swap x y ys)

theorem jsSort_perm (le : α → α → Bool) (l : List α) : (jsSort le l).Perm l := by
  induction l with
  | nil => simp [jsSort]
  | cons x xs ih => exact (insertSorted_perm le x (jsSort le xs)).trans (ih.cons x)

theorem mem_jsSort (le : α → α → Bool) (l : List α) (a : α) :
    a ∈ jsSort le l ↔ a ∈ l :=
  (jsSort_perm le l).mem_iff

theorem mem_insertSorted (le : α → α → Bool) (x : α) (l : List α) (a : α) :
    a ∈ insertSorted le x l ↔ a = x ∨ a ∈ l := by
  rw [(insertSorted_perm le x l).mem_iff, List.mem_cons]

theorem pairwise_insertSorted (le : α → α → Bool)
    (htot : ∀ a b, le a b = true ∨ le b a = true)
    (htrans : ∀ a b c, le a b = true → le b c = true → le a c = true)
    (x : α) (l : List α) (hl : l.Pairwise fun a b => le a b = true) :
    (insertSorted le x l).Pairwise fun a b => le a b = true := by
  induction l with
  | nil => simp [insertSorted]
  | cons y ys ih =>
    rw [List.pairwise_cons] at hl
    obtain ⟨hy, hys⟩ := hl
    by_cases h : le x y
    · simp only [insertSorted, if_pos h]
      rw [List.pairwise_cons]
      refine ⟨?_, ?_⟩
      · intro z hz
        rcases List.mem_cons.mp hz with rfl | hz
        · exact h
        · exact htrans x y z h (hy z hz)
      · rw [List.pairwise_cons]; exact ⟨hy, hys⟩
    · simp only [insertSorted, if_neg h]
      rw [List.pairwise_cons]
      refine ⟨?_, ih hys⟩
      intro z hz
      rcases (mem_insertSorted le x ys z).mp hz with rfl | hz
      · rcases htot y z with h2 | h2
        · exact h2
        · exact absurd h2 (by simpa using h)
      · exact hy z hz

theorem pairwise_jsSort (le : α → α → Bool)
    (htot : ∀ a b, le a b = true ∨ le b a = true)
    (htrans : ∀ a b c, le a b = true → le b c = true → le a c = true)
    (l : List α) :
    (jsSort le l).Pairwise fun a b => le a b = true := by
  induction l with
  | nil => simp [jsSort]
  | cons x xs ih => exact pairwise_insertSorted le htot htrans x _ ih

theorem charListLe_total (a b : List Char) :
    charListLe a b = true ∨ charListLe b a = true := by
  induction a generalizing b with
  | nil => left; rfl
  | cons x xs ih =>
    cases b with
    | nil => right; rfl
    | cons y ys =>
      rcases lt_trichotomy x y with h | h | h
      · left; simp [charListLe, if_pos h]
      · subst h
        rcases ih ys with h2 | h2
        · left; simp [charListLe, lt_irrefl, h2]
        · right; simp [charListLe, lt_irrefl, h2]
      · right; simp [charListLe, if_pos h]

theorem charListLe_trans : ∀ {a b c : List Char},
    charListLe a b = true → charListLe b c = true → charListLe a c = true := by
  intro a
  induction a with
  | nil => intro b c _ _; rfl
  | cons x xs ih =>
    intro b c hab hbc
    cases b with
    | nil => simp [charListLe] at hab
    | cons y ys =>
      cases c with
      | nil => simp [charListLe] at hbc
      | cons z zs =>
        rcases lt_trichotomy x y with hxy | hxy | hxy
        · rcases lt_trichotomy y z with hyz | hyz | hyz
          · simp [charListLe, if_pos (lt_trans hxy hyz)]
          · subst hyz; simp [charListLe, if_pos hxy]
          · simp [charListLe, if_neg (lt_asymm hyz), if_pos hyz] at hbc
        · subst hxy
          rcases lt_trichotomy x z with hxz | hxz | hxz
          · simp [charListLe, if_pos hxz]
          · subst hxz
            simp [charListLe, lt_irrefl] at hab hbc ⊢
            exact ih hab hbc
          · simp [charListLe, if_neg (lt_asymm hxz), if_pos hxz] at hbc
        · simp [charListLe, if_neg (lt_asymm hxy), if_pos hxy] at hab

theorem studentNameLe_total (a b : FrontlineStudent) :
    studentNameLe a b = true ∨ studentNameLe b a = true :=
  charListLe_total _ _

theorem studentNameLe_trans (a b c : FrontlineStudent)
    (h1 : studentNameLe a b = true) (h2 : studentNameLe b c = true) :
    studentNameLe a c = true :=
  charListLe_trans h1 h2

theorem length_filter_add_length_filter_not (p : α → Bool) (l : List α) :
    (l.filter p).length + (l.filter fun a => !(p a)).length = l.length := by
  induction l with
  | nil => rfl
  | cons x xs ih =>
    cases h : p x <;> simp [List.filter_cons, h] <;> omega

/-! ## Lemmas about the deduplicating period filter -/

theorem dedupScan_sub (np : String) :
    ∀ (l : List FrontlineStudent) (seen : List String),
    ∀ s ∈ dedupScan np l seen, s ∈ l ∧ normalizePeriod s.period = np := by
  intro l
  induction l with
  | nil => intro seen s hs; simp [dedupScan] at hs
  | cons x xs ih =>
    intro seen s hs
    by_cases hp : normalizePeriod x.period = np
    · by_cases hk : normalizeName x.studentName ∈ seen
      · simp only [dedupScan, if_pos hp, if_pos hk] at hs
        obtain ⟨h1, h2⟩ := ih seen s hs
        exact ⟨List.mem_cons_of_mem x h1, h2⟩
      · simp only [dedupScan, if_pos hp, if_neg hk] at hs
        rcases List.mem_cons.mp hs with rfl | hs
        · exact ⟨List.mem_cons_self _ _, hp⟩
        · obtain ⟨h1, h2⟩ := ih _ s hs
          exact ⟨List.mem_cons_of_mem x h1, h2⟩
    · simp only [dedupScan, if_neg hp] at hs
      obtain ⟨h1, h2⟩ := ih seen s hs
      exact ⟨List.mem_cons_of_mem x h1, h2⟩

theorem dedupScan_keys_nodup (np : String) :
    ∀ (l : List FrontlineStudent) (seen : List String),
    ((dedupScan np l seen).map fun s => normalizeName s.studentName).Nodup ∧
    ∀ s ∈ dedupScan np l seen, normalizeName s.studentName ∉ seen := by
  intro l
  induction l with
  | nil => intro seen; simp [dedupScan]
  | cons x xs ih =>
    intro seen
    by_cases hp : normalizePeriod x.period = np
    · by_cases hk : normalizeName x.studentName ∈ seen
      · simp only [dedupScan, if_pos hp, if_pos hk]; exact ih seen
      · simp only [dedupScan, if_pos hp, if_neg hk]
        obtain ⟨hnd, hseen⟩ := ih (normalizeName x.studentName :: seen)
        refine ⟨?_, ?_⟩
        · rw [List.map_cons, List.nodup_cons]
          refine ⟨?_, hnd⟩
          intro hmem
          obtain ⟨s, hs, hkey⟩ := List.mem_map.mp hmem
          apply hseen s hs
          rw [hkey]
          exact List.mem_cons_self _ _
        · intro s hs
          rcases List.mem_cons.mp hs with rfl | hs
          · exact hk
          · exact fun hcon => hseen s hs (List.mem_cons_of_mem _ hcon)
    · simp only [dedupScan, if_neg hp]; exact ih seen

theorem dedupScan_first_occurrence (np : String) :
    ∀ (l1 : List FrontlineStudent) (e : FrontlineStudent)
      (l2 : List FrontlineStudent) (seen : List String),
    normalizePeriod e.period = np →
    normalizeName e.studentName ∉ seen →
    (∀ x ∈ l1, normalizePeriod x.period = np →
        normalizeName x.studentName ≠ normalizeName e.studentName) →
    e ∈ dedupScan np (l1 ++ e :: l2) seen := by
  intro l1
  induction l1 with
  | nil =>
    intro e l2 seen hp hseen _
    simp only [List.nil_append, dedupScan, if_pos hp, if_neg hseen]
    exact List.mem_cons_self _ _
  | cons x xs ih =>
    intro e l2 seen hp hseen hfirst
    by_cases hxp : normalizePeriod x.period = np
    · by_cases hxk : normalizeName x.studentName ∈ seen
      · simp only [List.cons_append, dedupScan, if_pos hxp, if_pos hxk]
        exact ih e l2 seen hp hseen fun y hy => hfirst y (List.mem_cons_of_mem x hy)
      · simp only [List.cons_append, dedupScan, if_pos hxp, if_neg hxk]
        refine List.mem_cons_of_mem x ?_
        refine ih e l2 _ hp ?_ fun y hy => hfirst y (List.mem_cons_of_mem x hy)
        intro hcon
        rcases List.mem_cons.mp hcon with heq | hcon2
        · exact hfirst x (List.mem_cons_self x xs) hxp heq.symm
        · exact hseen hcon2
    · simp only [List.cons_append, dedupScan, if_neg hxp]
      exact ih e l2 seen hp hseen fun y hy => hfirst y (List.mem_cons_of_mem x hy)

/-! ## Lemmas about the course-count map and the max scan -/

theorem incr_map_fst : ∀ (m : List (String × Nat)) (c : String),
    (incr m c).map Prod.fst =
      if c ∈ m.map Prod.fst then m.map Prod.fst else m.map Prod.fst ++ [c] := by
  intro m
  induction m with
  | nil => intro c; simp [incr]
  | cons p t ih =>
    intro c
    obtain ⟨k, n⟩ := p
    by_cases h : k = c
    · subst h; simp [incr]
    · have hne : c ≠ k := fun hc => h hc.symm
      by_cases hc : c ∈ t.map Prod.fst
      · simp [incr, h, ih, hc, hne]
      · simp [incr, h, ih, hc, hne]

theorem mem_incr_map_fst (m : List (String × Nat)) (c d : String) :
    d ∈ (incr m c).map Prod.fst ↔ d ∈ m.map Prod.fst ∨ d = c := by
  rw [incr_map_fst]
  by_cases hc : c ∈ m.map Prod.fst
  · simp only [if_pos hc]
    constructor
    · exact Or.inl
    · rintro (h | rfl)
      · exact h
      · exact hc
  · simp [if_neg hc]

theorem incr_keys_nodup (m : List (String × Nat)) (c : String)
    (h : (m.map Prod.fst).Nodup) : ((incr m c).map Prod.fst).Nodup := by
  rw [incr_map_fst]
  by_cases hc : c ∈ m.map Prod.fst
  · simpa [if_pos hc] using h
  · simp [if_neg hc, List.nodup_append, h, hc]

theorem lookupD_cons_pos (k : String) (n : Nat) (t : List (String × Nat))
    (c : String) (h : k = c) : lookupD ((k, n) :: t) c = n := by
  subst h
  simp [lookupD, List.find?]

theorem lookupD_cons_neg (k : String) (n : Nat) (t : List (String × Nat))
    (c : String) (h : ¬ k = c) : lookupD ((k, n) :: t) c = lookupD t c := by
  unfold lookupD
  rw [List.find?_cons_of_neg t (by simpa using h)]

theorem incr_cons_pos (k : String) (n : Nat) (t : List (String × Nat))
    (c : String) (h : k = c) : incr ((k, n) :: t) c = (k, n + 1) :: t := by
  simp [incr, h]

theorem incr_cons_neg (k : String) (n : Nat) (t : List (String × Nat))
    (c : String) (h : ¬ k = c) : incr ((k, n) :: t) c = (k, n) :: incr t c := by
  simp [incr, h]

theorem lookupD_nil (c : String) : lookupD [] c = 0 := by
  simp [lookupD, List.find?]

theorem lookupD_incr_self : ∀ (m : List (String × Nat)) (c : String),
    lookupD (incr m c) c = lookupD m c + 1 := by
  intro m
  induction m with
  | nil =>
    intro c
    show lookupD [(c, 1)] c = lookupD [] c + 1
    rw [lookupD_cons_pos c 1 [] c rfl, lookupD_nil]
  | cons p t ih =>
    intro c
    obtain ⟨k, n⟩ := p
    by_cases h : k = c
    · rw [incr_cons_pos k n t c h, lookupD_cons_pos k (n + 1) t c h,
        lookupD_cons_pos k n t c h]
    · rw [incr_cons_neg k n t c h, lookupD_cons_neg k n _ c h,
        lookupD_cons_neg k n t c h]
      exact ih c

theorem lookupD_incr_other : ∀ (m : List (String × Nat)) (c d : String),
    d ≠ c → lookupD (incr m c) d = lookupD m d := by
  intro m
  induction m with
  | nil =>
    intro c d hdc
    show lookupD [(c, 1)] d = lookupD [] d
    rw [lookupD_cons_neg c 1 [] d fun hh => hdc hh.symm]
  | cons p t ih =>
    intro c d hdc
    obtain ⟨k, n⟩ := p
    by_cases h : k = c
    · by_cases hk : k = d
      · exact absurd (h.symm.trans hk).symm hdc
      · rw [incr_cons_pos k n t c h, lookupD_cons_neg k (n + 1) t d hk,
          lookupD_cons_neg k n t d hk]
    · by_cases hk : k = d
      · rw [incr_cons_neg k n t c h, lookupD_cons_pos k n _ d hk,
          lookupD_cons_pos k n t d hk]
      · rw [incr_cons_neg k n t c h, lookupD_cons_neg k n _ d hk,
          lookupD_cons_neg k n t d hk]
        exact ih c d hdc

theorem lookupD_strCounts_aux : ∀ (l : List String) (m : List (String × Nat)) (c : String),
    lookupD (l.foldl (fun m c => incr m c) m) c = lookupD m c + countS l c := by
  intro l
  induction l with
  | nil => intro m c; simp [countS]
  | cons x xs ih =>
    intro m c
    simp only [List.foldl_cons]
    rw [ih]
    by_cases h : x = c
    · subst h
      rw [lookupD_incr_self]
      simp [countS, List.filter_cons]
      omega
    · rw [lookupD_incr_other m x c fun hh => h hh.symm]
      simp [countS, List.filter_cons, h]

theorem lookupD_strCounts (l : List String) (c : String) :
    lookupD (strCounts l) c = countS l c := by
  rw [strCounts, lookupD_strCounts_aux, lookupD_nil]
  omega

theorem mem_keys_foldl_incr : ∀ (l : List String) (m : List (String × Nat)) (c : String),
    c ∈ ((l.foldl (fun m c => incr m c) m).map Prod.fst) ↔
      c ∈ m.map Prod.fst ∨ c ∈ l := by
  intro l
  induction l with
  | nil => intro m c; simp
  | cons x xs ih =>
    intro m c
    simp only [List.foldl_cons]
    rw [ih, mem_incr_map_fst]
    simp [List.mem_cons]
    tauto

theorem mem_keys_strCounts (l : List String) (c : String) :
    c ∈ (strCounts l).map Prod.fst ↔ c ∈ l := by
  rw [strCounts, mem_keys_foldl_incr]
  simp

theorem keys_foldl_incr_nodup : ∀ (l : List String) (m : List (String × Nat)),
    (m.map Prod.fst).Nodup → ((l.foldl (fun m c => incr m c) m).map Prod.fst).Nodup := by
  intro l
  induction l with
  | nil => intro m h; simpa using h
  | cons x xs ih =>
    intro m h
    simp only [List.foldl_cons]
    exact ih _ (incr_keys_nodup m x h)

theorem keys_strCounts_nodup (l : List String) : ((strCounts l).map Prod.fst).Nodup := by
  exact keys_foldl_incr_nodup l [] (by simp)

theorem entry_eq_lookupD : ∀ (m : List (String × Nat)), (m.map Prod.fst).Nodup →
    ∀ p ∈ m, lookupD m p.1 = p.2 := by
  intro m
  induction m with
  | nil => intro _ p hp; simp at hp
  | cons q t ih =>
    intro hnd p hp
    obtain ⟨k, n⟩ := q
    rw [List.map_cons, List.nodup_cons] at hnd
    obtain ⟨hk, hnd⟩ := hnd
    rcases List.mem_cons.mp hp with rfl | hp
    · exact lookupD_cons_pos _ _ _ _ rfl
    · have hin : p.1 ∈ t.map Prod.fst := List.mem_map_of_mem Prod.fst hp
      have hne : ¬ k = p.1 := fun hh => hk (hh ▸ hin)
      rw [lookupD_cons_neg k n t p.1 hne]
      exact ih hnd p hp

theorem entry_snd_eq_countS (l : List String) (p : String × Nat)
    (hp : p ∈ strCounts l) : p.2 = countS l p.1 := by
  rw [← lookupD_strCounts l p.1]
  exact (entry_eq_lookupD (strCounts l) (keys_strCounts_nodup l) p hp).symm

/-! ### First-occurrence index lemmas -/

theorem firstIdx_append_left (c : String) :
    ∀ (l1 l2 : List String), c ∈ l1 → firstIdx c (l1 ++ l2) = firstIdx c l1 := by
  intro l1
  induction l1 with
  | nil => intro l2 h; simp at h
  | cons x xs ih =>
    intro l2 h
    by_cases hx : x = c
    · simp [firstIdx, hx]
    · rcases List.mem_cons.mp h with rfl | h
      · exact absurd rfl hx
      · simp [firstIdx, hx, ih l2 h]

theorem firstIdx_lt_length (c : String) :
    ∀ (l : List String), c ∈ l → firstIdx c l < l.length := by
  intro l
  induction l with
  | nil => intro h; simp at h
  | cons x xs ih =>
    intro h
    by_cases hx : x = c
    · simp [firstIdx, hx]
    · rcases List.mem_cons.mp h with rfl | h
      · exact absurd rfl hx
      · simp only [firstIdx, if_neg hx, List.length_cons]
        exact Nat.succ_lt_succ (ih h)

theorem firstIdx_append_not_mem (c : String) :
    ∀ (l1 l2 : List String), c ∉ l1 →
      firstIdx c (l1 ++ l2) = l1.length + firstIdx c l2 := by
  intro l1
  induction l1 with
  | nil => intro l2 _; simp
  | cons x xs ih =>
    intro l2 h
    have hx : ¬ x = c := fun hh => h (hh ▸ List.mem_cons_self x xs)
    have hxs : c ∉ xs := fun hh => h (List.mem_cons_of_mem x hh)
    simp only [List.cons_append, firstIdx, if_neg hx, List.length_cons]
    show firstIdx c (xs ++ l2) + 1 = xs.length + 1 + firstIdx c l2
    rw [ih l2 hxs]
    omega

theorem strCounts_append_singleton (l : List String) (x : String) :
    strCounts (l ++ [x]) = incr (strCounts l) x := by
  simp [strCounts, List.foldl_append]

theorem keys_strCounts_order (l : List String) :
    ((strCounts l).map Prod.fst).Pairwise fun c d => firstIdx c l < firstIdx d l := by
  induction l using List.reverseRecOn with
  | nil => simp [strCounts]
  | append_singleton l x ih =>
    rw [strCounts_append_singleton, incr_map_fst]
    by_cases hx : x ∈ (strCounts l).map Prod.fst
    · rw [if_pos hx]
      refine List.Pairwise.imp_of_mem ?_ ih
      intro a b ha hb hab
      rw [firstIdx_append_left a l [x] ((mem_keys_strCounts l a).mp ha),
          firstIdx_append_left b l [x] ((mem_keys_strCounts l b).mp hb)]
      exact hab
    · rw [if_neg hx]
      rw [List.pairwise_append]
      refine ⟨List.Pairwise.imp_of_mem ?_ ih, by simp, ?_⟩
      · intro a b ha hb hab
        rw [firstIdx_append_left a l [x] ((mem_keys_strCounts l a).mp ha),
            firstIdx_append_left b l [x] ((mem_keys_strCounts l b).mp hb)]
        exact hab
      · intro a ha b hb
        have hbx : b = x := List.mem_singleton.mp hb
        subst hbx
        have hal : a ∈ l := (mem_keys_strCounts l a).mp ha
        have hxl : b ∉ l := fun hc => hx ((mem_keys_strCounts l b).mpr hc)
        rw [firstIdx_append_left a l [b] hal, firstIdx_append_not_mem b l [b] hxl]
        have hlt := firstIdx_lt_length a l hal
        have : firstIdx b [b] = 0 := by simp [firstIdx]
        omega

theorem bestScan_all_le : ∀ (counts : List (String × Nat)) (b : String × Nat),
    (∀ p ∈ counts, p.2 ≤ b.2) →
    counts.foldl (fun best p => if p.2 > best.2 then p else best) b = b := by
  intro counts
  induction counts with
  | nil => intro b _; rfl
  | cons c t ih =>
    intro b h
    have hc : ¬ (c.2 > b.2) := not_lt.mpr (h c (List.mem_cons_self c t))
    simp only [List.foldl_cons, if_neg hc]
    exact ih b fun p hp => h p (List.mem_cons_of_mem c hp)

theorem bestScan_first_max : ∀ (counts : List (String × Nat)) (b : String × Nat),
    (∃ p ∈ counts, b.2 < p.2) →
    ∃ l1 p l2, counts = l1 ++ p :: l2 ∧
      counts.foldl (fun best q => if q.2 > best.2 then q else best) b = p ∧
      b.2 < p.2 ∧ (∀ q ∈ counts, q.2 ≤ p.2) ∧ (∀ q ∈ l1, q.2 < p.2) := by
  intro counts
  induction counts with
  | nil => intro b h; simp at h
  | cons c t ih =>
    intro b hex
    by_cases hc : b.2 < c.2
    · simp only [List.foldl_cons, if_pos (show c.2 > b.2 from hc)]
      by_cases ht : ∀ q ∈ t, q.2 ≤ c.2
      · refine ⟨[], c, t, rfl, ?_, hc, ?_, by simp⟩
        · exact bestScan_all_le t c ht
        · intro q hq
          rcases List.mem_cons.mp hq with rfl | hq
          · exact le_refl _
          · exact ht q hq
      · push_neg at ht
        obtain ⟨q0, hq0, hq0lt⟩ := ht
        obtain ⟨l1, p, l2, hdec, hfold, hlt, hmax, hpre⟩ := ih c ⟨q0, hq0, hq0lt⟩
        refine ⟨c :: l1, p, l2, by rw [hdec, List.cons_append], hfold, lt_trans hc hlt, ?_, ?_⟩
        · intro q hq
          rcases List.mem_cons.mp hq with rfl | hq
          · exact le_of_lt hlt
          · exact hmax q hq
        · intro q hq
          rcases List.mem_cons.mp hq with rfl | hq
          · exact hlt
          · exact hpre q hq
    · simp only [List.foldl_cons, if_neg (show ¬ c.2 > b.2 from hc)]
      have hex2 : ∃ p ∈ t, b.2 < p.2 := by
        obtain ⟨p0, hp0, hp0lt⟩ := hex
        rcases List.mem_cons.mp hp0 with rfl | hp0
        · exact absurd hp0lt hc
        · exact ⟨p0, hp0, hp0lt⟩
      obtain ⟨l1, p, l2, hdec, hfold, hlt, hmax, hpre⟩ := ih b hex2
      have hclt : c.2 < p.2 := lt_of_le_of_lt (not_lt.mp hc) hlt
      refine ⟨c :: l1, p, l2, by rw [hdec, List.cons_append], hfold, hlt, ?_, ?_⟩
      · intro q hq
        rcases List.mem_cons.mp hq with rfl | hq
        · exact le_of_lt hclt
        · exact hmax q hq
      · intro q hq
        rcases List.mem_cons.mp hq with rfl | hq
        · exact hclt
        · exact hpre q hq

theorem courseCounts_eq_strCounts (g : List FrontlineStudent) :
    courseCounts g = strCounts (g.map (·.course)) := by
  simp [courseCounts, strCounts, List.foldl_map]

theorem countC_eq_countS (g : List FrontlineStudent) (c : String) :
    countC g c = countS (g.map (·.course)) c := by
  induction g with
  | nil => rfl
  | cons x xs ih =>
    by_cases h : x.course = c <;>
      simp [countC, countS, List.filter_cons, h] at ih ⊢ <;> omega

theorem countS_pos (l : List String) (c : String) (hc : c ∈ l) : 0 < countS l c := by
  have hmem : c ∈ l.filter fun x => x = c := List.mem_filter.mpr ⟨hc, by simp⟩
  exact List.length_pos.mpr (List.ne_nil_of_mem hmem)

/-! ## Lemmas about the engine plumbing -/

theorem mem_compareRosters_comparisons (fl : List FrontlineStudent)
    (cs : List Course) (m : String → Option (List Student)) (c : ComparisonResult) :
    c ∈ (compareRosters fl cs m).comparisons ↔
      ∃ p ∈ getUniquePeriods fl, c = comparisonFor fl cs m p := by
  show c ∈ jsSort comparisonNumLe ((getUniquePeriods fl).map (comparisonFor fl cs m)) ↔ _
  rw [mem_jsSort]
  simp only [List.mem_map]
  constructor
  · rintro ⟨p, hp, rfl⟩; exact ⟨p, hp, rfl⟩
  · rintro ⟨p, hp, rfl⟩; exact ⟨p, hp, rfl⟩

/-! ## Claim theorems -/

/-- C3, counterexample: the extension-side `parseName` does NOT drop middle
names — the whole post-comma remainder becomes the first name, so
`parseName "Doe, John Michael"` has first name `"john michael"`, not
`"john"` as the claim asserts for every normalizer implementation. -/
theorem claim3_counterexample :
    (RosterCompare.parseName "Doe, John Michael").first = "john michael" ∧
    (RosterCompare.parseName "Doe, John Michael").first ≠ "john" := by
  decide

/-- C4, counterexample: on the all-zero digit string `"0"`,
`normalizePeriod` strips every zero and then `parseInt("")` is `NaN`, so
the result is `"NaN"`, not the `"0"` the claim requires. -/
theorem claim4_counterexample :
    normalizePeriod "0" = "NaN" ∧ normalizePeriod "0" ≠ "0" := by
  decide

/-- C2, counterexample: the deduplicated period group is returned sorted
by raw student name, not in order of first appearance: with input order
`["bob", "alice"]` the group comes back `["alice", "bob"]`. -/
theorem claim2_counterexample :
    (getStudentsForPeriod exampleFl2 "1").map (·.studentName) = ["alice", "bob"] ∧
    (getStudentsForPeriod exampleFl2 "1").map (·.studentName) ≠ ["bob", "alice"] := by
  decide

/-- C5, counterexample: empty course labels DO participate in the
majority vote of `getCourseNameForPeriod`.  With two empty labels and one
`"X"`, the code returns `""`, while the spec's non-empty-majority policy
(`primaryCourseLabelSpec`) returns `"X"`. -/
theorem claim5_counterexample :
    getCourseNameForPeriod exampleFl5 "1" = "" ∧
    primaryCourseLabelSpec exampleFl5 "1" = "X" ∧
    getCourseNameForPeriod exampleFl5 "1" ≠ primaryCourseLabelSpec exampleFl5 "1" := by
  decide

/-- C1, counterexample: the platform-side partition equation fails: two
distinct source names (`"john a smith"`, `"john b smith"`) both fuzzy-match
the single platform name `"john smith"`, so `matched.length +
extraInGC.length = 2 ≠ 1 = gcStudents.length`. -/
theorem claim1_counterexample :
    ((compareRosters exampleFl1 exampleCourses1 exampleMap1).comparisons.map
      fun c => (c.matched.length + c.extraInGC.length, c.gcStudents.length)) = [(2, 1)] ∧
    (2 : Nat) ≠ 1 := by
  decide

/-- C9: the reconciliation engine is total — in this shallow embedding
every input produces a `RosterDiff` — and on entirely empty inputs it
returns the all-empty, all-zero diff. -/
theorem claim9_total_empty :
    (∀ (fl : List FrontlineStudent) (cs : List Course)
       (m : String → Option (List Student)), ∃ d : RosterDiff, compareRosters fl cs m = d) ∧
    compareRosters [] [] (fun _ => none) =
      { comparisons := [], unmatchedPeriods := [],
        summary := { totalFrontline := 0, totalGC := 0, totalMissing := 0,
                     totalExtra := 0, totalMatched := 0 } } :=
  ⟨fun fl cs m => ⟨compareRosters fl cs m, rfl⟩, by decide⟩

/-! ### Digit-string lemmas for the period normalizer -/

theorem isDigit_not_ws (c : Char) (h : c.isDigit = true) : isJsWhitespace c = false := by
  by_contra hw
  rw [Bool.not_eq_false] at hw
  simp only [isJsWhitespace, Bool.or_eq_true, decide_eq_true_eq] at hw
  rcases hw with ((((rfl | rfl) | rfl) | rfl) | rfl) | rfl <;> exact absurd h (by decide)

theorem isDigit_ne_minus (c : Char) (h : c.isDigit = true) : c ≠ '-' := by
  rintro rfl; exact absurd h (by decide)

theorem isDigit_ne_plus (c : Char) (h : c.isDigit = true) : c ≠ '+' := by
  rintro rfl; exact absurd h (by decide)

theorem digitsToNat_all_zeros : ∀ (l : List Char), (∀ c ∈ l, c = '0') →
    digitsToNat l = 0 := by
  intro l
  induction l with
  | nil => intro _; rfl
  | cons x xs ih =>
    intro h
    have hx : x = '0' := h x (List.mem_cons_self x xs)
    subst hx
    unfold digitsToNat at ih ⊢
    simp only [List.foldl_cons]
    have h0 : 10 * 0 + ('0'.toNat - '0'.toNat) = 0 := by decide
    rw [h0]
    exact ih fun c hc => h c (List.mem_cons_of_mem _ hc)

theorem digitsToNat_zeros_prefix (l1 l2 : List Char) (h : ∀ c ∈ l1, c = '0') :
    digitsToNat (l1 ++ l2) = digitsToNat l2 := by
  unfold digitsToNat
  rw [List.foldl_append]
  have h0 : List.foldl (fun n c => 10 * n + (c.toNat - '0'.toNat)) 0 l1 = 0 :=
    digitsToNat_all_zeros l1 h
  rw [h0]

/-- C4, amended: on a non-empty decimal digit string containing at least
one nonzero digit, `normalizePeriod` returns the decimal rendering of its
numeric value with leading zeros stripped (`"03" → "3"`); but a digit
string consisting only of zeros yields `"NaN"` (the leading-zero strip
leaves `""` and `parseInt("")` is `NaN`), not `"0"` as claimed.  The
statement is restricted to at most 15 digits: that keeps the value below
2^53, the range on which JavaScript's `parseInt`-then-`toString` round
trip is exactly the integer rendering this embedding uses (beyond it,
`parseInt` rounds to the nearest double and `toString` may switch to
shortest-round-trip or exponential form; real period strings have one or
two digits).  Join keys are still compared via `normalizePeriod` equality
throughout the code. -/
theorem claim4_amended (s : String) (_hne : s.toList ≠ [])
    (_hlen : s.toList.length ≤ 15)
    (hdig : ∀ c ∈ s.toList, c.isDigit = true) :
    ((∃ c ∈ s.toList, c ≠ '0') →
        normalizePeriod s = Nat.repr (digitsToNat s.toList)) ∧
    ((∀ c ∈ s.toList, c = '0') → normalizePeriod s = "NaN") := by
  constructor
  · intro hnz
    have hdrop : s.toList.dropWhile (fun c => decide (c = '0')) ≠ [] := by
      intro hnil
      rw [List.dropWhile_eq_nil_iff] at hnil
      obtain ⟨c, hc, hcne⟩ := hnz
      exact hcne (by simpa using hnil c hc)
    obtain ⟨c, t, ht⟩ := List.exists_cons_of_ne_nil hdrop
    have hsub : ∀ x ∈ s.toList.dropWhile (fun c => decide (c = '0')), x ∈ s.toList :=
      fun x hx => (List.dropWhile_sublist _).subset hx
    have hcd : c.isDigit = true := hdig c (hsub c (by rw [ht]; exact List.mem_cons_self c t))
    have htl : (String.mk (s.toList.dropWhile fun c => decide (c = '0'))).toList =
        s.toList.dropWhile fun c => decide (c = '0') := rfl
    have hparse :
        jsParseIntBase10 (String.mk (s.toList.dropWhile fun c => decide (c = '0'))) =
          some (false, digitsToNat s.toList) := by
      unfold jsParseIntBase10
      rw [htl, ht]
      have hwsc : ¬ (isJsWhitespace c = true) := by simp [isDigit_not_ws c hcd]
      rw [List.dropWhile_cons, if_neg hwsc]
      simp only [List.head?_cons]
      have hsign : ¬(some c = some '-' ∨ some c = some '+') := by
        rintro (hh | hh) <;> rw [Option.some_inj] at hh
        · exact isDigit_ne_minus c hcd hh
        · exact isDigit_ne_plus c hcd hh
      rw [if_neg hsign]
      have htake : (c :: t).takeWhile Char.isDigit = c :: t := by
        rw [List.takeWhile_eq_self_iff]
        intro x hx
        exact hdig x (hsub x (by rw [ht]; exact hx))
      rw [htake]
      rw [show (c :: t).isEmpty = false from rfl]
      simp only [Bool.false_eq_true, if_false]
      have hneg : decide (some c = some '-') = false := by
        apply decide_eq_false
        intro hh
        rw [Option.some_inj] at hh
        exact isDigit_ne_minus c hcd hh
      rw [hneg]
      have hsplit : s.toList =
          (s.toList.takeWhile fun c => decide (c = '0')) ++
            s.toList.dropWhile (fun c => decide (c = '0')) :=
        (List.takeWhile_append_dropWhile _ _).symm
      have hzeros : ∀ x ∈ s.toList.takeWhile fun c => decide (c = '0'), x = '0' := by
        intro x hx
        have := List.mem_takeWhile_imp hx
        simpa using this
      have hdd : digitsToNat s.toList = digitsToNat (c :: t) := by
        conv_lhs => rw [hsplit, ht]
        exact digitsToNat_zeros_prefix _ _ hzeros
      rw [← hdd]
    unfold normalizePeriod
    rw [hparse]
    simp [jsIntToString]
  · intro hz
    have hdrop : s.toList.dropWhile (fun c => decide (c = '0')) = [] := by
      rw [List.dropWhile_eq_nil_iff]
      intro x hx
      simp [hz x hx]
    unfold normalizePeriod
    rw [hdrop]
    decide

/-- Witness for C4: `"03"` normalizes to `"3"` (= `Nat.repr 3`) and the
all-zero string `"00"` normalizes to `"NaN"`. -/
theorem claim4_amended_witness :
    normalizePeriod "03" = Nat.repr (digitsToNat "03".toList) ∧
    normalizePeriod "00" = "NaN" :=
  ⟨(claim4_amended "03" (by decide) (by decide) (by decide)).1 ⟨'3', by decide, by decide⟩,
   (claim4_amended "00" (by decide) (by decide) (by decide)).2 (by decide)⟩

/-- C7: `extractPeriodFromGCName` tries its five patterns in the fixed
source order — leading digits then space/hyphen, `period\s*(\d+)`,
`\((\d+)\)`, `\bp(\d+)\b`, `\bpd\s*(\d+)\b` — and returns the capture of
the first pattern that matches, `none` when none do; including the spec's
concrete examples. -/
theorem claim7_pattern_order :
    (∀ name : String,
      extractPeriodFromGCName name =
        (((((matchLeadingNum name.toList).orElse fun _ =>
              scanFrom periodPatAt none name.toList).orElse fun _ =>
              scanFrom parenNumAt none name.toList).orElse fun _ =>
              scanFrom pNumAt none name.toList).orElse fun _ =>
              scanFrom pdNumAt none name.toList).map String.mk) ∧
    extractPeriodFromGCName "3 Chemistry" = some "3" ∧
    extractPeriodFromGCName "Period 04" = some "04" ∧
    extractPeriodFromGCName "Chemistry" = none := by
  refine ⟨?_, by decide, by decide, by decide⟩
  intro name
  by_cases hn : name = ""
  · subst hn; decide
  · unfold extractPeriodFromGCName
    rw [if_neg hn]
    cases h1 : matchLeadingNum name.toList <;>
      cases h2 : scanFrom periodPatAt none name.toList <;>
        cases h3 : scanFrom parenNumAt none name.toList <;>
          cases h4 : scanFrom pNumAt none name.toList <;>
            cases h5 : scanFrom pdNumAt none name.toList <;>
              simp_all [Option.orElse]

/-- `decide` of an equality is symmetric in its sides. -/
theorem decide_eq_symm {α : Type} [DecidableEq α] (x y : α) :
    decide (x = y) = decide (y = x) := by
  by_cases h : x = y
  · simp [h]
  · have h2 : ¬ y = x := fun hh => h hh.symm
    simp [h, h2]

/-- The two-token comparison core of the web-side matcher is symmetric. -/
theorem namesMatch_core_comm (p1 p2 : List (List Char)) :
    (if p1.length ≥ 2 && p2.length ≥ 2 then
       decide (p1.headD [] = p2.headD []) && decide (p1.getLastD [] = p2.getLastD [])
     else false) =
    (if p2.length ≥ 2 && p1.length ≥ 2 then
       decide (p2.headD [] = p1.headD []) && decide (p2.getLastD [] = p1.getLastD [])
     else false) := by
  by_cases hl1 : p1.length ≥ 2 <;> by_cases hl2 : p2.length ≥ 2
  · have hc1 : (decide (p1.length ≥ 2) && decide (p2.length ≥ 2)) = true := by
      simp [hl1, hl2]
    have hc2 : (decide (p2.length ≥ 2) && decide (p1.length ≥ 2)) = true := by
      simp [hl1, hl2]
    rw [if_pos hc1, if_pos hc2]
    congr 1
    · exact decide_eq_symm _ _
    · exact decide_eq_symm _ _
  all_goals
    have hc1 : ¬ ((decide (p1.length ≥ 2) && decide (p2.length ≥ 2)) = true) := by
      simp only [Bool.and_eq_true, decide_eq_true_eq]
      tauto
    have hc2 : ¬ ((decide (p2.length ≥ 2) && decide (p1.length ≥ 2)) = true) := by
      simp only [Bool.and_eq_true, decide_eq_true_eq]
      tauto
    rw [if_neg hc1, if_neg hc2]

/-- C8: both name matchers are commutative: swapping the two argument
names never changes the verdict, for the web-side `namesMatch` (rules 1-2)
and the extension-side `RosterCompare.namesMatch` (rules 1-3 including the
swapped first/last rule). -/
theorem claim8_commutative :
    (∀ a b, namesMatch a b = namesMatch b a) ∧
    (∀ a b, RosterCompare.namesMatch a b = RosterCompare.namesMatch b a) := by
  constructor
  · intro a b
    unfold namesMatch
    by_cases h : normalizeName a = normalizeName b
    · simp [h]
    · have h2 : ¬ normalizeName b = normalizeName a := fun hh => h hh.symm
      rw [if_neg h, if_neg h2]
      exact namesMatch_core_comm (splitOnChar ' ' (normalizeName a).toList)
        (splitOnChar ' ' (normalizeName b).toList)
  · intro a b
    unfold RosterCompare.namesMatch
    by_cases h1 : (RosterCompare.parseName a).full = (RosterCompare.parseName b).full
    · simp [h1]
    · have h1s : ¬ (RosterCompare.parseName b).full = (RosterCompare.parseName a).full :=
        fun hh => h1 hh.symm
      rw [if_neg h1, if_neg h1s]
      have e1 : (decide ((RosterCompare.parseName b).first = (RosterCompare.parseName a).first) &&
          decide ((RosterCompare.parseName b).last = (RosterCompare.parseName a).last)) =
          (decide ((RosterCompare.parseName a).first = (RosterCompare.parseName b).first) &&
          decide ((RosterCompare.parseName a).last = (RosterCompare.parseName b).last)) := by
        rw [decide_eq_symm ((RosterCompare.parseName b).first) ((RosterCompare.parseName a).first),
            decide_eq_symm ((RosterCompare.parseName b).last) ((RosterCompare.parseName a).last)]
      have e2 : (decide ((RosterCompare.parseName b).first = (RosterCompare.parseName a).last) &&
          decide ((RosterCompare.parseName b).last = (RosterCompare.parseName a).first)) =
          (decide ((RosterCompare.parseName a).first = (RosterCompare.parseName b).last) &&
          decide ((RosterCompare.parseName a).last = (RosterCompare.parseName b).first)) := by
        rw [decide_eq_symm ((RosterCompare.parseName b).first) ((RosterCompare.parseName a).last),
            decide_eq_symm ((RosterCompare.parseName b).last) ((RosterCompare.parseName a).first)]
        exact Bool.and_comm _ _
      rw [e1, e2]

/-- C1, amended: for every `ComparisonResult` the source-side partition
always holds: `matched.length + missingFromGC.length =
frontlineStudents.length`.  The platform-side equation of the claim fails
in general (one platform name may fuzzy-match several source names); what
holds is that the platform names partition into those matched by SOME
source name and `extraInGC`. Both facts hold for `compareRosters` and for
`compareForPeriod`. -/
theorem claim1_partition_amended :
    (∀ (fl : List FrontlineStudent) (cs : List Course)
       (m : String → Option (List Student)) (c : ComparisonResult),
       c ∈ (compareRosters fl cs m).comparisons →
       c.matched.length + c.missingFromGC.length = c.frontlineStudents.length ∧
       (c.gcStudents.filter fun g => c.frontlineStudents.any fun f => namesMatch f g).length +
         c.extraInGC.length = c.gcStudents.length) ∧
    (∀ (fl : List FrontlineStudent) (period : String) (gs : List Student),
       (compareForPeriod fl period gs).matched.length +
         (compareForPeriod fl period gs).missingFromGC.length =
         (compareForPeriod fl period gs).frontlineStudents.length ∧
       ((compareForPeriod fl period gs).gcStudents.filter fun g =>
           (compareForPeriod fl period gs).frontlineStudents.any fun f => namesMatch f g).length +
         (compareForPeriod fl period gs).extraInGC.length =
         (compareForPeriod fl period gs).gcStudents.length) := by
  constructor
  · intro fl cs m c hc
    rw [mem_compareRosters_comparisons] at hc
    obtain ⟨p, hp, rfl⟩ := hc
    cases hf : findMatchingGCCourse p cs with
    | none => simp [comparisonFor, hf]
    | some course =>
      simp only [comparisonFor, hf]
      exact ⟨length_filter_add_length_filter_not _ _,
        length_filter_add_length_filter_not _ _⟩
  · intro fl period gs
    exact ⟨length_filter_add_length_filter_not _ _,
      length_filter_add_length_filter_not _ _⟩

/-- Witness for C1 (amended): the two partition equations evaluated on the
concrete two-source-names / one-platform-name example. -/
theorem claim1_partition_witness :
    (comparisonFor exampleFl1 exampleCourses1 exampleMap1 "1").matched.length +
        (comparisonFor exampleFl1 exampleCourses1 exampleMap1 "1").missingFromGC.length =
      (comparisonFor exampleFl1 exampleCourses1 exampleMap1 "1").frontlineStudents.length ∧
    ((comparisonFor exampleFl1 exampleCourses1 exampleMap1 "1").gcStudents.filter fun g =>
        (comparisonFor exampleFl1 exampleCourses1 exampleMap1 "1").frontlineStudents.any fun f =>
          namesMatch f g).length +
        (comparisonFor exampleFl1 exampleCourses1 exampleMap1 "1").extraInGC.length =
      (comparisonFor exampleFl1 exampleCourses1 exampleMap1 "1").gcStudents.length :=
  claim1_partition_amended.1 exampleFl1 exampleCourses1 exampleMap1 _ (by decide)

/-- The deduplicated group's student names come out sorted under the
modelled `localeCompare` order. -/
theorem getStudentsForPeriod_names_pairwise (entries : List FrontlineStudent) (period : String) :
    ((getStudentsForPeriod entries period).map (·.studentName)).Pairwise
      fun a b => charListLe a.toList b.toList = true := by
  have h := pairwise_jsSort studentNameLe studentNameLe_total studentNameLe_trans
    (dedupScan (normalizePeriod period) entries [])
  rw [List.pairwise_map]
  exact h

/-- C6: a source period with no matching platform course is reported as
unmatched: its `ComparisonResult` is in the diff, lists every source name
of the period in `missingFromGC`, has empty platform and matched lists,
the period is in `unmatchedPeriods`, and those names are counted in
`totalMissing` and in `totalFrontline`. -/
theorem claim6_unmatched_period (fl : List FrontlineStudent) (cs : List Course)
    (m : String → Option (List Student)) (p : String)
    (hp : p ∈ getUniquePeriods fl)
    (hnone : findMatchingGCCourse p cs = none) :
    comparisonFor fl cs m p ∈ (compareRosters fl cs m).comparisons ∧
    (comparisonFor fl cs m p).missingFromGC =
      (getStudentsForPeriod fl p).map (·.studentName) ∧
    (comparisonFor fl cs m p).gcStudents = [] ∧
    (comparisonFor fl cs m p).matched = [] ∧
    p ∈ (compareRosters fl cs m).unmatchedPeriods ∧
    ((getStudentsForPeriod fl p).map (·.studentName)).length ≤
      (compareRosters fl cs m).summary.totalMissing ∧
    ((getStudentsForPeriod fl p).map (·.studentName)).length ≤
      (compareRosters fl cs m).summary.totalFrontline := by
  refine ⟨?_, ?_, ?_, ?_, ?_, ?_, ?_⟩
  · exact (mem_compareRosters_comparisons fl cs m _).mpr ⟨p, hp, rfl⟩
  · simp [comparisonFor, hnone]
  · simp [comparisonFor, hnone]
  · simp [comparisonFor, hnone]
  · show p ∈ (getUniquePeriods fl).filter fun q => (findMatchingGCCourse q cs).isNone
    exact List.mem_filter.mpr ⟨hp, by simp [hnone]⟩
  · show _ ≤ (((getUniquePeriods fl).map (comparisonFor fl cs m)).map
      (·.missingFromGC.length)).sum
    have hmem : (comparisonFor fl cs m p).missingFromGC.length ∈
        ((getUniquePeriods fl).map (comparisonFor fl cs m)).map (·.missingFromGC.length) :=
      List.mem_map_of_mem _ (List.mem_map_of_mem _ hp)
    have hlen : (comparisonFor fl cs m p).missingFromGC.length =
        ((getStudentsForPeriod fl p).map (·.studentName)).length := by
      simp [comparisonFor, hnone]
    calc ((getStudentsForPeriod fl p).map (·.studentName)).length
        = (comparisonFor fl cs m p).missingFromGC.length := hlen.symm
      _ ≤ _ := List.single_le_sum (fun x _ => Nat.zero_le x) _ hmem
  · show _ ≤ (((getUniquePeriods fl).map (comparisonFor fl cs m)).map
      (·.frontlineStudents.length)).sum
    have hmem : (comparisonFor fl cs m p).frontlineStudents.length ∈
        ((getUniquePeriods fl).map (comparisonFor fl cs m)).map (·.frontlineStudents.length) :=
      List.mem_map_of_mem _ (List.mem_map_of_mem _ hp)
    have hlen : (comparisonFor fl cs m p).frontlineStudents.length =
        ((getStudentsForPeriod fl p).map (·.studentName)).length := by
      simp [comparisonFor, hnone]
    calc ((getStudentsForPeriod fl p).map (·.studentName)).length
        = (comparisonFor fl cs m p).frontlineStudents.length := hlen.symm
      _ ≤ _ := List.single_le_sum (fun x _ => Nat.zero_le x) _ hmem

/-- Witness for C6: source period `"7"` with no platform course. -/
theorem claim6_unmatched_witness :
    comparisonFor exampleFl6 [] (fun _ => none) "7" ∈
      (compareRosters exampleFl6 [] (fun _ => none)).comparisons ∧
    (comparisonFor exampleFl6 [] (fun _ => none) "7").missingFromGC =
      (getStudentsForPeriod exampleFl6 "7").map (·.studentName) ∧
    (comparisonFor exampleFl6 [] (fun _ => none) "7").gcStudents = [] ∧
    (comparisonFor exampleFl6 [] (fun _ => none) "7").matched = [] ∧
    "7" ∈ (compareRosters exampleFl6 [] (fun _ => none)).unmatchedPeriods ∧
    ((getStudentsForPeriod exampleFl6 "7").map (·.studentName)).length ≤
      (compareRosters exampleFl6 [] (fun _ => none)).summary.totalMissing ∧
    ((getStudentsForPeriod exampleFl6 "7").map (·.studentName)).length ≤
      (compareRosters exampleFl6 [] (fun _ => none)).summary.totalFrontline :=
  claim6_unmatched_period exampleFl6 [] (fun _ => none) "7" (by decide) (by decide)

/-- C2, amended: the period group is deduplicated by normalized student
name with the first-encountered entry retained, and every group member is
an input entry of the (normalized) period; but the output order is
ascending by raw `studentName` (the final `sort` with `localeCompare`),
not the order of first appearance. -/
theorem claim2_dedup_amended (entries : List FrontlineStudent) (period : String) :
    (((getStudentsForPeriod entries period).map fun s => normalizeName s.studentName).Nodup) ∧
    (∀ s ∈ getStudentsForPeriod entries period,
        s ∈ entries ∧ normalizePeriod s.period = normalizePeriod period) ∧
    (∀ (l1 : List FrontlineStudent) (e : FrontlineStudent) (l2 : List FrontlineStudent),
        entries = l1 ++ e :: l2 →
        normalizePeriod e.period = normalizePeriod period →
        (∀ x ∈ l1, normalizePeriod x.period = normalizePeriod period →
            normalizeName x.studentName ≠ normalizeName e.studentName) →
        e ∈ getStudentsForPeriod entries period) ∧
    ((getStudentsForPeriod entries period).map (·.studentName)).Pairwise
      fun a b => charListLe a.toList b.toList = true := by
  refine ⟨?_, ?_, ?_, getStudentsForPeriod_names_pairwise entries period⟩
  · have hperm : (getStudentsForPeriod entries period).Perm
        (dedupScan (normalizePeriod period) entries []) :=
      jsSort_perm _ _
    have hmap := hperm.map fun s => normalizeName s.studentName
    exact hmap.nodup_iff.mpr (dedupScan_keys_nodup (normalizePeriod period) entries []).1
  · intro s hs
    have hs2 : s ∈ dedupScan (normalizePeriod period) entries [] :=
      (mem_jsSort _ _ _).mp hs
    exact dedupScan_sub _ entries [] s hs2
  · intro l1 e l2 hsplit hp hfirst
    have he : e ∈ dedupScan (normalizePeriod period) entries [] := by
      rw [hsplit]
      exact dedupScan_first_occurrence _ l1 e l2 [] hp (by simp) hfirst
    exact (mem_jsSort _ _ _).mpr he

/-- Witness for C2 (amended): `"alice"` appears second in the input but is
retained (first occurrence of its normalized name) and is a member of the
group. -/
theorem claim2_dedup_witness :
    mkStudent "alice" "C" "1" ∈ getStudentsForPeriod exampleFl2 "1" :=
  (claim2_dedup_amended exampleFl2 "1").2.2.1 [mkStudent "bob" "C" "1"]
    (mkStudent "alice" "C" "1") [] (by decide) (by decide) (by decide)

/-- C10: the deduplicated period group — and hence the
`frontlineStudents` name list of every `ComparisonResult` produced by
`compareRosters` — is sorted ascending by the raw student name, in the
code-unit model of `localeCompare`. -/
theorem claim10_group_sorted :
    (∀ (entries : List FrontlineStudent) (period : String),
      ((getStudentsForPeriod entries period).map (·.studentName)).Pairwise
        fun a b => charListLe a.toList b.toList = true) ∧
    (∀ (fl : List FrontlineStudent) (cs : List Course)
       (m : String → Option (List Student)) (c : ComparisonResult),
       c ∈ (compareRosters fl cs m).comparisons →
       c.frontlineStudents.Pairwise fun a b => charListLe a.toList b.toList = true) := by
  refine ⟨getStudentsForPeriod_names_pairwise, ?_⟩
  intro fl cs m c hc
  rw [mem_compareRosters_comparisons] at hc
  obtain ⟨p, hp, rfl⟩ := hc
  cases hf : findMatchingGCCourse p cs with
  | none =>
    have h := getStudentsForPeriod_names_pairwise fl p
    simpa [comparisonFor, hf] using h
  | some course =>
    have h := getStudentsForPeriod_names_pairwise fl p
    simpa [comparisonFor, hf] using h

/-- Witness for C10: the sortedness of a concrete produced comparison. -/
theorem claim10_group_sorted_witness :
    (comparisonFor exampleFl1 exampleCourses1 exampleMap1 "1").frontlineStudents.Pairwise
      (fun a b => charListLe a.toList b.toList = true) :=
  claim10_group_sorted.2 exampleFl1 exampleCourses1 exampleMap1 _ (by decide)

/-- The label picked by the count-and-scan of `getCourseNameForPeriod`
attains the maximal multiplicity among ALL labels of the group (the empty
label included), and among the labels attaining that maximum it is the one
whose first occurrence in the scan order comes first. -/
theorem bestCourse_majority (g : List FrontlineStudent) (hne : g ≠ []) :
    (∃ s ∈ g, s.course = (bestCourse (courseCounts g)).1) ∧
    (∀ x ∈ g, countC g x.course ≤ countC g (bestCourse (courseCounts g)).1) ∧
    (∀ x ∈ g, countC g x.course = countC g (bestCourse (courseCounts g)).1 →
       firstIdx (bestCourse (courseCounts g)).1 (g.map (·.course)) ≤
         firstIdx x.course (g.map (·.course))) := by
  have hcc := courseCounts_eq_strCounts g
  obtain ⟨s0, g0, hg0⟩ := List.exists_cons_of_ne_nil hne
  have hs0L : s0.course ∈ g.map (·.course) := by
    rw [hg0]; exact List.mem_map_of_mem _ (List.mem_cons_self _ _)
  have hkey := (mem_keys_strCounts (g.map (·.course)) s0.course).mpr hs0L
  obtain ⟨p0, hp0, hp0fst⟩ := List.mem_map.mp hkey
  have hp0pos : (("", 0) : String × Nat).2 < p0.2 := by
    have hval := entry_snd_eq_countS _ _ hp0
    rw [hval, hp0fst]
    exact countS_pos _ _ hs0L
  obtain ⟨l1, p, l2, hdec, hfold, hlt, hmax, hpre⟩ :=
    bestScan_first_max (strCounts (g.map (·.course))) ("", 0) ⟨p0, hp0, hp0pos⟩
  have hb : bestCourse (courseCounts g) = p := by
    rw [bestCourse, hcc]
    exact hfold
  have hpmem : p ∈ strCounts (g.map (·.course)) := by
    rw [hdec]
    exact List.mem_append_right _ (List.mem_cons_self _ _)
  have hpval : p.2 = countS (g.map (·.course)) p.1 := entry_snd_eq_countS _ _ hpmem
  have hrkey : p.1 ∈ g.map (·.course) :=
    (mem_keys_strCounts _ _).mp (List.mem_map_of_mem Prod.fst hpmem)
  refine ⟨?_, ?_, ?_⟩
  · obtain ⟨s, hs, hsc⟩ := List.mem_map.mp hrkey
    exact ⟨s, hs, by rw [hb]; exact hsc⟩
  · intro x hx
    have hxL : x.course ∈ g.map (·.course) := List.mem_map_of_mem _ hx
    have hxkey := (mem_keys_strCounts _ _).mpr hxL
    obtain ⟨q, hq, hqfst⟩ := List.mem_map.mp hxkey
    have hqval := entry_snd_eq_countS _ _ hq
    rw [hb, countC_eq_countS, countC_eq_countS]
    calc countS (g.map (·.course)) x.course
        = q.2 := by rw [hqval, hqfst]
      _ ≤ p.2 := hmax q hq
      _ = countS (g.map (·.course)) p.1 := hpval
  · intro x hx htie
    rw [hb] at htie ⊢
    have hxL : x.course ∈ g.map (·.course) := List.mem_map_of_mem _ hx
    have hxkey := (mem_keys_strCounts _ _).mpr hxL
    obtain ⟨q, hq, hqfst⟩ := List.mem_map.mp hxkey
    have hqval := entry_snd_eq_countS _ _ hq
    have hqmax : q.2 = p.2 := by
      rw [countC_eq_countS, countC_eq_countS] at htie
      rw [hqval, hqfst, htie, ← hpval]
    have hq2 : q ∈ p :: l2 := by
      rcases List.mem_append.mp (hdec ▸ hq) with hql1 | hqr
      · exact absurd hqmax (Nat.ne_of_lt (hpre q hql1))
      · exact hqr
    rcases List.mem_cons.mp hq2 with rfl | hql2
    · exact le_of_eq (congrArg (fun c => firstIdx c (g.map (·.course))) hqfst)
    · have hord := keys_strCounts_order (g.map (·.course))
      rw [hdec, List.map_append, List.map_cons, List.pairwise_append] at hord
      obtain ⟨_, hord2, _⟩ := hord
      rw [List.pairwise_cons] at hord2
      have hidx := hord2.1 q.1 (List.mem_map_of_mem Prod.fst hql2)
      rw [hqfst] at hidx
      exact le_of_lt hidx

/-- C5, amended: `getCourseNameForPeriod` is a majority vote over ALL
course labels of the period's deduplicated group — the empty label
participates like any other (contrary to the claim's "non-empty labels
only") — with ties broken in favor of the label first encountered during
the counting scan: the chosen label belongs to the group, attains the
maximal multiplicity, and its first occurrence precedes that of every
other label attaining the maximum; an empty group yields `""`. -/
theorem claim5_majority_amended (students : List FrontlineStudent) (period : String) :
    (getStudentsForPeriod students period = [] →
      getCourseNameForPeriod students period = "") ∧
    (getStudentsForPeriod students period ≠ [] →
      (∃ s ∈ getStudentsForPeriod students period,
         s.course = getCourseNameForPeriod students period) ∧
      (∀ x ∈ getStudentsForPeriod students period,
         countC (getStudentsForPeriod students period) x.course ≤
           countC (getStudentsForPeriod students period)
             (getCourseNameForPeriod students period)) ∧
      (∀ x ∈ getStudentsForPeriod students period,
         countC (getStudentsForPeriod students period) x.course =
           countC (getStudentsForPeriod students period)
             (getCourseNameForPeriod students period) →
         firstIdx (getCourseNameForPeriod students period)
             ((getStudentsForPeriod students period).map (·.course)) ≤
           firstIdx x.course ((getStudentsForPeriod students period).map (·.course)))) := by
  constructor
  · intro hempty
    show (bestCourse (courseCounts (getStudentsForPeriod students period))).1 = ""
    rw [hempty]
    rfl
  · intro hne2
    exact bestCourse_majority (getStudentsForPeriod students period) hne2

/-- Witness for C5 (amended): on the concrete example the chosen label is
a label of the group. -/
theorem claim5_majority_witness :
    ∃ s ∈ getStudentsForPeriod exampleFl5 "1",
      s.course = getCourseNameForPeriod exampleFl5 "1" :=
  ((claim5_majority_amended exampleFl5 "1").2 (by decide)).1

/-! ### Character-level lemmas for the universal comma-handling theorems -/

theorem toNat_ofNat_letter (n : Nat) (h1 : 97 ≤ n) (h2 : n ≤ 122) :
    (Char.ofNat n).toNat = n := by
  unfold Char.ofNat
  have hv : n.isValidChar := Or.inl (by omega)
  rw [dif_pos hv]
  simp [Char.ofNatAux, Char.toNat, UInt32.toNat, BitVec.toNat_ofNatLt]

theorem toLower_eq_self_or_letter (c : Char) :
    Char.toLower c = c ∨ (97 ≤ (Char.toLower c).toNat ∧ (Char.toLower c).toNat ≤ 122) := by
  simp only [Char.toLower]
  by_cases h : c.toNat ≥ 65 ∧ c.toNat ≤ 90
  · right
    rw [if_pos h]
    rw [toNat_ofNat_letter (c.toNat + 32) (by omega) (by omega)]
    omega
  · left
    rw [if_neg h]

theorem isJsWhitespace_toLower (c : Char) (h : isJsWhitespace c = false) :
    isJsWhitespace (Char.toLower c) = false := by
  rcases toLower_eq_self_or_letter c with he | ⟨h1, _⟩
  · rw [he]; exact h
  · have hne : ∀ d : Char, d.toNat ≤ 32 → ¬ (Char.toLower c = d) := by
      intro d hd heq
      rw [heq] at h1
      omega
    simp only [isJsWhitespace, Bool.or_eq_false_iff, decide_eq_false_iff_not]
    exact ⟨⟨⟨⟨⟨hne ' ' (by decide), hne '\t' (by decide)⟩, hne '\n' (by decide)⟩,
      hne '\r' (by decide)⟩, hne '\x0b' (by decide)⟩, hne '\x0c' (by decide)⟩

theorem toLower_ne_comma (c : Char) (h : ¬ (c = ',')) : ¬ (Char.toLower c = ',') := by
  rcases toLower_eq_self_or_letter c with he | ⟨h1, _⟩
  · rw [he]; exact h
  · intro heq
    rw [heq] at h1
    exact absurd h1 (by decide)

/-! ### List plumbing lemmas for the canonical `"last, first middle"` shape -/

theorem plainToken_spec (s : String) (h : plainToken s = true) :
    s.toList ≠ [] ∧ ∀ c ∈ s.toList, isJsWhitespace c = false ∧ ¬ (c = ',') := by
  simp only [plainToken, Bool.and_eq_true, Bool.not_eq_true', List.all_eq_true,
    bne_iff_ne] at h
  obtain ⟨h1, h2⟩ := h
  constructor
  · intro hnil
    rw [hnil] at h1
    simp at h1
  · intro c hc
    exact h2 c hc

theorem dropWhile_eq_self_of_head (p : Char → Bool) (l : List Char)
    (h : ∀ c, l.head? = some c → p c = false) : l.dropWhile p = l := by
  cases l with
  | nil => rfl
  | cons c t =>
    rw [List.dropWhile_cons, if_neg (by simp [h c rfl])]

theorem getLast?_mem_of_eq {l : List Char} {a : Char} (h : l.getLast? = some a) :
    a ∈ l := by
  obtain ⟨hne, heq⟩ := List.mem_getLast?_eq_getLast (show a ∈ l.getLast? from by rw [h]; rfl)
  rw [heq]
  exact List.getLast_mem hne

theorem head?_mem_of_eq {l : List Char} {a : Char} (h : l.head? = some a) : a ∈ l := by
  cases l with
  | nil => simp at h
  | cons x t =>
    rw [List.head?_cons, Option.some_inj] at h
    exact h ▸ List.mem_cons_self x t

theorem getLast?_cons_ne_nil (x : Char) (l : List Char) (h : l ≠ []) :
    (x :: l).getLast? = l.getLast? := by
  cases l with
  | nil => exact absurd rfl h
  | cons y t => exact List.getLast?_cons_cons

theorem getLast?_append_ne_nil (A B : List Char) (hB : B ≠ []) :
    (A ++ B).getLast? = B.getLast? := by
  rw [List.getLast?_append, List.getLast?_eq_getLast_of_ne_nil hB]
  simp

theorem jsTrim_eq_self (l : List Char)
    (hhead : ∀ c, l.head? = some c → isJsWhitespace c = false)
    (hlast : ∀ c, l.getLast? = some c → isJsWhitespace c = false) :
    jsTrim l = l := by
  unfold jsTrim
  rw [dropWhile_eq_self_of_head _ l hhead]
  rw [dropWhile_eq_self_of_head _ l.reverse
    (fun c hc => hlast c (by rwa [List.head?_reverse] at hc))]
  exact List.reverse_reverse l

theorem jsTrim_cons_space (l : List Char) : jsTrim (' ' :: l) = jsTrim l := by
  unfold jsTrim
  rw [List.dropWhile_cons, if_pos (by decide)]

theorem collapseWs_cons_nonws (c : Char) (hc : isJsWhitespace c = false)
    (rest : List Char) : collapseWs (c :: rest) = c :: collapseWs rest := by
  cases rest with
  | nil => simp [collapseWs, hc]
  | cons d t => simp [collapseWs, hc]

theorem collapseWs_cons_space (x : Char) (t : List Char)
    (hx : isJsWhitespace x = false) :
    collapseWs (' ' :: x :: t) = ' ' :: collapseWs (x :: t) := by
  simp [collapseWs, hx]

theorem collapseWs_append_nonws (A : List Char) :
    ∀ (rest : List Char), (∀ c ∈ A, isJsWhitespace c = false) →
      collapseWs (A ++ rest) = A ++ collapseWs rest := by
  induction A with
  | nil => intro rest _; rfl
  | cons a A' ih =>
    intro rest h
    have ha : isJsWhitespace a = false := h a (List.mem_cons_self _ _)
    rw [List.cons_append, collapseWs_cons_nonws a ha,
      ih rest fun c hc => h c (List.mem_cons_of_mem _ hc)]
    rfl

theorem collapseWs_nonws_id (A : List Char)
    (h : ∀ c ∈ A, isJsWhitespace c = false) : collapseWs A = A := by
  have h2 := collapseWs_append_nonws A [] h
  simpa [collapseWs] using h2

theorem splitOnChar_no_sep (sep : Char) :
    ∀ (A : List Char), (∀ c ∈ A, ¬ (c = sep)) → splitOnChar sep A = [A] := by
  intro A
  induction A with
  | nil => intro _; rfl
  | cons a A' ih =>
    intro h
    have ha := h a (List.mem_cons_self _ _)
    rw [splitOnChar, if_neg ha, ih fun c hc => h c (List.mem_cons_of_mem _ hc)]

theorem splitOnChar_append_sep (sep : Char) :
    ∀ (A rest : List Char), (∀ c ∈ A, ¬ (c = sep)) →
      splitOnChar sep (A ++ sep :: rest) = A :: splitOnChar sep rest := by
  intro A
  induction A with
  | nil =>
    intro rest _
    show splitOnChar sep (sep :: rest) = [] :: splitOnChar sep rest
    rw [splitOnChar, if_pos rfl]
  | cons a A' ih =>
    intro rest h
    have ha := h a (List.mem_cons_self _ _)
    show splitOnChar sep (a :: (A' ++ sep :: rest)) = (a :: A') :: splitOnChar sep rest
    rw [splitOnChar, if_neg ha, ih rest fun c hc => h c (List.mem_cons_of_mem _ hc)]

theorem getLast?_canonical (L F M : List Char) (_hF : F ≠ []) (hM : M ≠ []) :
    (L ++ (',' :: ' ' :: (F ++ (' ' :: M)))).getLast? = M.getLast? := by
  rw [getLast?_append_ne_nil L _ (by simp)]
  rw [getLast?_cons_ne_nil ',' _ (by simp)]
  rw [getLast?_cons_ne_nil ' ' _ (by simp)]
  rw [getLast?_append_ne_nil F _ (by simp)]
  rw [getLast?_cons_ne_nil ' ' _ hM]

theorem canonical_clean (L F M : List Char)
    (hLne : L ≠ []) (hFne : F ≠ []) (hMne : M ≠ [])
    (hL : ∀ c ∈ L, isJsWhitespace c = false)
    (hF : ∀ c ∈ F, isJsWhitespace c = false)
    (hM : ∀ c ∈ M, isJsWhitespace c = false) :
    collapseWs (jsTrim (L ++ (',' :: ' ' :: (F ++ (' ' :: M))))) =
      L ++ (',' :: ' ' :: (F ++ (' ' :: M))) := by
  obtain ⟨a, L', hLeq⟩ := List.exists_cons_of_ne_nil hLne
  obtain ⟨f, F', hFeq⟩ := List.exists_cons_of_ne_nil hFne
  obtain ⟨m, M', hMeq⟩ := List.exists_cons_of_ne_nil hMne
  have htrim : jsTrim (L ++ (',' :: ' ' :: (F ++ (' ' :: M)))) =
      L ++ (',' :: ' ' :: (F ++ (' ' :: M))) := by
    apply jsTrim_eq_self
    · intro c hc
      rw [hLeq, List.cons_append, List.head?_cons, Option.some_inj] at hc
      exact hc ▸ hL a (hLeq ▸ List.mem_cons_self a L')
    · intro c hc
      rw [getLast?_canonical L F M hFne hMne] at hc
      exact hM c (getLast?_mem_of_eq hc)
  rw [htrim]
  rw [collapseWs_append_nonws L _ hL]
  rw [collapseWs_cons_nonws ',' (by decide)]
  rw [hFeq, List.cons_append,
    collapseWs_cons_space f _ (hF f (hFeq ▸ List.mem_cons_self f F'))]
  rw [← List.cons_append, ← hFeq]
  rw [collapseWs_append_nonws F _ hF]
  rw [hMeq, collapseWs_cons_space m _ (hM m (hMeq ▸ List.mem_cons_self m M'))]
  rw [← hMeq, collapseWs_nonws_id M hM]

theorem jsTrim_all_nonws (L : List Char)
    (h : ∀ c ∈ L, isJsWhitespace c = false) : jsTrim L = L := by
  apply jsTrim_eq_self
  · intro c hc
    exact h c (head?_mem_of_eq hc)
  · intro c hc
    exact h c (getLast?_mem_of_eq hc)

theorem canonical_trimR (F M : List Char) (hFne : F ≠ []) (hMne : M ≠ [])
    (hF : ∀ c ∈ F, isJsWhitespace c = false)
    (hM : ∀ c ∈ M, isJsWhitespace c = false) :
    jsTrim (' ' :: (F ++ (' ' :: M))) = F ++ (' ' :: M) := by
  rw [jsTrim_cons_space]
  apply jsTrim_eq_self
  · intro c hc
    obtain ⟨f, F2, hFeq⟩ := List.exists_cons_of_ne_nil hFne
    rw [hFeq, List.cons_append, List.head?_cons, Option.some_inj] at hc
    exact hc ▸ hF f (hFeq ▸ List.mem_cons_self f F2)
  · intro c hc
    rw [getLast?_append_ne_nil F _ (by simp), getLast?_cons_ne_nil ' ' _ hMne] at hc
    exact hM c (getLast?_mem_of_eq hc)

theorem canonical_splitRaw (L F M : List Char)
    (hL : ∀ c ∈ L, ¬ (c = ','))
    (hF : ∀ c ∈ F, ¬ (c = ','))
    (hM : ∀ c ∈ M, ¬ (c = ',')) :
    splitOnChar ',' (L ++ (',' :: ' ' :: (F ++ (' ' :: M)))) =
      [L, ' ' :: (F ++ (' ' :: M))] := by
  rw [splitOnChar_append_sep ',' L _ hL]
  rw [splitOnChar_no_sep ',' (' ' :: (F ++ (' ' :: M))) ?hns]
  case hns =>
    intro c hc
    rcases List.mem_cons.mp hc with rfl | hc
    · decide
    · rcases List.mem_append.mp hc with hc | hc
      · exact hF c hc
      · rcases List.mem_cons.mp hc with rfl | hc
        · decide
        · exact hM c hc

/-! ### Recursion equations for the extension's comma-spacing rewrite -/

theorem replaceCommaF_fuel : ∀ (fuel : Nat) (l : List Char), l.length ≤ fuel →
    RosterCompare.replaceCommaF fuel l = RosterCompare.replaceComma l := by
  intro fuel
  induction fuel using Nat.strong_induction_on with
  | _ fuel ih =>
    intro l hl
    cases l with
    | nil =>
      cases fuel <;> rfl
    | cons c t =>
      cases fuel with
      | zero => simp at hl
      | succ f =>
        have hlen : t.length ≤ f := by
          simpa using hl
        by_cases hc : c = ','
        · subst hc
          have e1 : RosterCompare.replaceCommaF (f + 1) (',' :: t) =
              ',' :: ' ' :: RosterCompare.replaceCommaF f (t.dropWhile isJsWhitespace) := by
            simp [RosterCompare.replaceCommaF]
          have e2 : RosterCompare.replaceComma (',' :: t) =
              ',' :: ' ' :: RosterCompare.replaceCommaF t.length (t.dropWhile isJsWhitespace) := by
            show RosterCompare.replaceCommaF ((',' :: t).length) (',' :: t) = _
            simp [RosterCompare.replaceCommaF]
          have hd : (t.dropWhile isJsWhitespace).length ≤ t.length :=
            (List.dropWhile_sublist _).length_le
          rw [e1, e2]
          rw [ih f (Nat.lt_succ_self f) _ (le_trans hd hlen)]
          rw [ih t.length (by omega) _ hd]
        · have e1 : RosterCompare.replaceCommaF (f + 1) (c :: t) =
              c :: RosterCompare.replaceCommaF f t := by
            simp [RosterCompare.replaceCommaF, hc]
          have e2 : RosterCompare.replaceComma (c :: t) =
              c :: RosterCompare.replaceCommaF t.length t := by
            show RosterCompare.replaceCommaF ((c :: t).length) (c :: t) = _
            simp [RosterCompare.replaceCommaF, hc]
          rw [e1, e2]
          rw [ih f (Nat.lt_succ_self f) t hlen]
          rw [ih t.length (by omega) t (le_refl _)]

theorem replaceComma_cons_ne (c : Char) (t : List Char) (hc : ¬ (c = ',')) :
    RosterCompare.replaceComma (c :: t) = c :: RosterCompare.replaceComma t := by
  show RosterCompare.replaceCommaF ((c :: t).length) (c :: t) = _
  have e : RosterCompare.replaceCommaF (t.length + 1) (c :: t) =
      c :: RosterCompare.replaceCommaF t.length t := by
    simp [RosterCompare.replaceCommaF, hc]
  rw [show (c :: t).length = t.length + 1 from rfl, e,
    replaceCommaF_fuel t.length t (le_refl _)]

theorem replaceComma_cons_comma (t : List Char) :
    RosterCompare.replaceComma (',' :: t) =
      ',' :: ' ' :: RosterCompare.replaceComma (t.dropWhile isJsWhitespace) := by
  show RosterCompare.replaceCommaF ((',' :: t).length) (',' :: t) = _
  have e : RosterCompare.replaceCommaF (t.length + 1) (',' :: t) =
      ',' :: ' ' :: RosterCompare.replaceCommaF t.length (t.dropWhile isJsWhitespace) := by
    simp [RosterCompare.replaceCommaF]
  rw [show (',' :: t).length = t.length + 1 from rfl, e,
    replaceCommaF_fuel t.length _ (List.dropWhile_sublist _).length_le]

theorem replaceComma_no_comma : ∀ (l : List Char), (∀ c ∈ l, ¬ (c = ',')) →
    RosterCompare.replaceComma l = l := by
  intro l
  induction l with
  | nil => intro _; rfl
  | cons c t ih =>
    intro h
    rw [replaceComma_cons_ne c t (h c (List.mem_cons_self _ _)),
      ih fun d hd => h d (List.mem_cons_of_mem _ hd)]

theorem replaceComma_append_ne (A : List Char) :
    ∀ (l : List Char), (∀ c ∈ A, ¬ (c = ',')) →
      RosterCompare.replaceComma (A ++ l) = A ++ RosterCompare.replaceComma l := by
  induction A with
  | nil => intro l _; rfl
  | cons a A' ih =>
    intro l h
    rw [List.cons_append, replaceComma_cons_ne a _ (h a (List.mem_cons_self _ _)),
      ih l fun c hc => h c (List.mem_cons_of_mem _ hc)]
    rfl

/-- C3, amended: universally over plain name tokens, the web-side
`normalizeName` keeps only the first whitespace-delimited token after the
comma and drops the middle name —
`normalizeName (last ++ ", " ++ first ++ " " ++ middle)` is the lowercased
`"first last"` — while the extension-side `parseName` keeps the entire
post-comma remainder as the first name: its `first` field is the
lowercased `"first middle"`, its `last` field the lowercased last name,
and its `full` field the lowercased `"first middle last"`.  The spec's
example instances are included. -/
theorem claim3_amended :
    (∀ (last first middle : String),
        plainToken last = true → plainToken first = true → plainToken middle = true →
        normalizeName (last ++ ", " ++ first ++ " " ++ middle) =
          String.mk (jsLower first.toList ++ (' ' :: jsLower last.toList))) ∧
    (∀ (last first middle : String),
        plainToken last = true → plainToken first = true → plainToken middle = true →
        RosterCompare.parseName (last ++ ", " ++ first ++ " " ++ middle) =
          { first := String.mk (jsLower first.toList ++ (' ' :: jsLower middle.toList)),
            last := String.mk (jsLower last.toList),
            full := String.mk ((jsLower first.toList ++ (' ' :: jsLower middle.toList)) ++
              (' ' :: jsLower last.toList)) }) ∧
    normalizeName "Doe, John Michael" = "john doe" ∧
    RosterCompare.parseName "Doe, John Michael" =
      { first := "john michael", last := "doe", full := "john michael doe" } := by
  refine ⟨?_, ?_, by decide, by decide⟩
  · intro last first middle hlast hfirst hmiddle
    obtain ⟨hLne, hLp⟩ := plainToken_spec last hlast
    obtain ⟨hFne, hFp⟩ := plainToken_spec first hfirst
    obtain ⟨hMne, hMp⟩ := plainToken_spec middle hmiddle
    have hname : (last ++ ", " ++ first ++ " " ++ middle).toList =
        last.toList ++ (',' :: ' ' :: (first.toList ++ (' ' :: middle.toList))) := by
      have h1 : (", " : String).data = [',', ' '] := rfl
      have h2 : (" " : String).data = [' '] := rfl
      show (last ++ ", " ++ first ++ " " ++ middle).data = _
      simp [String.toList, String.data_append, h1, h2]
    have hnne : ¬ (last ++ ", " ++ first ++ " " ++ middle) = "" := by
      intro h
      have h2 := hname
      rw [h] at h2
      obtain ⟨a, L', hLeq⟩ := List.exists_cons_of_ne_nil hLne
      rw [hLeq] at h2
      simp at h2
    have hclean := canonical_clean last.toList first.toList middle.toList hLne hFne hMne
      (fun c hc => (hLp c hc).1) (fun c hc => (hFp c hc).1) (fun c hc => (hMp c hc).1)
    have hsplitRaw := canonical_splitRaw last.toList first.toList middle.toList
      (fun c hc => (hLp c hc).2) (fun c hc => (hFp c hc).2) (fun c hc => (hMp c hc).2)
    have htrimL := jsTrim_all_nonws last.toList fun c hc => (hLp c hc).1
    have htrimR := canonical_trimR first.toList middle.toList hFne hMne
      (fun c hc => (hFp c hc).1) (fun c hc => (hMp c hc).1)
    have hcont : (last.toList ++
        (',' :: ' ' :: (first.toList ++ (' ' :: middle.toList)))).contains ',' = true :=
      List.elem_eq_true_of_mem (List.mem_append.mpr (Or.inr (List.mem_cons_self _ _)))
    have hsplit2 : splitOnChar ' ' (first.toList ++ (' ' :: middle.toList)) =
        first.toList :: splitOnChar ' ' middle.toList :=
      splitOnChar_append_sep ' ' first.toList middle.toList fun c hc heq => by
        have hw := (hFp c hc).1
        rw [heq] at hw
        exact absurd hw (by decide)
    have hsp : Char.toLower ' ' = ' ' := by decide
    unfold normalizeName
    simp only [hnne, if_false, hname, hclean, hcont]
    simp only [String.toList] at hsplitRaw htrimL htrimR hsplit2
    simp [hsplitRaw, htrimL, htrimR, hsplit2, jsLower, hsp]
  · intro last first middle hlast hfirst hmiddle
    obtain ⟨hLne, hLp⟩ := plainToken_spec last hlast
    obtain ⟨hFne, hFp⟩ := plainToken_spec first hfirst
    obtain ⟨hMne, hMp⟩ := plainToken_spec middle hmiddle
    have hLlowp : ∀ c ∈ jsLower last.toList, isJsWhitespace c = false ∧ ¬ (c = ',') := by
      intro c hc
      obtain ⟨d, hd, rfl⟩ := List.mem_map.mp hc
      exact ⟨isJsWhitespace_toLower d (hLp d hd).1, toLower_ne_comma d (hLp d hd).2⟩
    have hFlowp : ∀ c ∈ jsLower first.toList, isJsWhitespace c = false ∧ ¬ (c = ',') := by
      intro c hc
      obtain ⟨d, hd, rfl⟩ := List.mem_map.mp hc
      exact ⟨isJsWhitespace_toLower d (hFp d hd).1, toLower_ne_comma d (hFp d hd).2⟩
    have hMlowp : ∀ c ∈ jsLower middle.toList, isJsWhitespace c = false ∧ ¬ (c = ',') := by
      intro c hc
      obtain ⟨d, hd, rfl⟩ := List.mem_map.mp hc
      exact ⟨isJsWhitespace_toLower d (hMp d hd).1, toLower_ne_comma d (hMp d hd).2⟩
    have hLlowne : jsLower last.toList ≠ [] := by
      intro h
      apply hLne
      simpa [jsLower] using h
    have hFlowne : jsLower first.toList ≠ [] := by
      intro h
      apply hFne
      simpa [jsLower] using h
    have hMlowne : jsLower middle.toList ≠ [] := by
      intro h
      apply hMne
      simpa [jsLower] using h
    have hname : (last ++ ", " ++ first ++ " " ++ middle).toList =
        last.toList ++ (',' :: ' ' :: (first.toList ++ (' ' :: middle.toList))) := by
      have h1 : (", " : String).data = [',', ' '] := rfl
      have h2 : (" " : String).data = [' '] := rfl
      show (last ++ ", " ++ first ++ " " ++ middle).data = _
      simp [String.toList, String.data_append, h1, h2]
    have hnne : ¬ (last ++ ", " ++ first ++ " " ++ middle) = "" := by
      intro h
      have h2 := hname
      rw [h] at h2
      obtain ⟨a, L', hLeq⟩ := List.exists_cons_of_ne_nil hLne
      rw [hLeq] at h2
      simp at h2
    have hsp : Char.toLower ' ' = ' ' := by decide
    have hcm : Char.toLower ',' = ',' := by decide
    have hlowT : jsLower (last.toList ++
        (',' :: ' ' :: (first.toList ++ (' ' :: middle.toList)))) =
        jsLower last.toList ++
          (',' :: ' ' :: (jsLower first.toList ++ (' ' :: jsLower middle.toList))) := by
      simp [jsLower, hsp, hcm]
    have hclean := canonical_clean (jsLower last.toList) (jsLower first.toList)
      (jsLower middle.toList) hLlowne hFlowne hMlowne
      (fun c hc => (hLlowp c hc).1) (fun c hc => (hFlowp c hc).1)
      (fun c hc => (hMlowp c hc).1)
    have hdw : (' ' :: (jsLower first.toList ++ (' ' :: jsLower middle.toList))).dropWhile
        isJsWhitespace = jsLower first.toList ++ (' ' :: jsLower middle.toList) := by
      rw [List.dropWhile_cons, if_pos (by decide)]
      apply dropWhile_eq_self_of_head
      intro c hc
      obtain ⟨f, F', hFeq⟩ := List.exists_cons_of_ne_nil hFlowne
      rw [hFeq, List.cons_append, List.head?_cons, Option.some_inj] at hc
      exact hc ▸ (hFlowp f (hFeq ▸ List.mem_cons_self f F')).1
    have hrep : RosterCompare.replaceComma (jsLower last.toList ++
        (',' :: ' ' :: (jsLower first.toList ++ (' ' :: jsLower middle.toList)))) =
        jsLower last.toList ++
          (',' :: ' ' :: (jsLower first.toList ++ (' ' :: jsLower middle.toList))) := by
      rw [replaceComma_append_ne _ _ fun c hc => (hLlowp c hc).2]
      rw [replaceComma_cons_comma, hdw]
      rw [replaceComma_no_comma _ ?hnc]
      case hnc =>
        intro c hc
        rcases List.mem_append.mp hc with hc | hc
        · exact (hFlowp c hc).2
        · rcases List.mem_cons.mp hc with rfl | hc
          · decide
          · exact (hMlowp c hc).2
    have hnorm : RosterCompare.normalizeName (last ++ ", " ++ first ++ " " ++ middle) =
        String.mk (jsLower last.toList ++
          (',' :: ' ' :: (jsLower first.toList ++ (' ' :: jsLower middle.toList)))) := by
      unfold RosterCompare.normalizeName
      rw [if_neg hnne, hname, hlowT, hclean, hrep]
    have hsplitRaw := canonical_splitRaw (jsLower last.toList) (jsLower first.toList)
      (jsLower middle.toList) (fun c hc => (hLlowp c hc).2) (fun c hc => (hFlowp c hc).2)
      (fun c hc => (hMlowp c hc).2)
    have htrimL := jsTrim_all_nonws (jsLower last.toList) fun c hc => (hLlowp c hc).1
    have htrimR := canonical_trimR (jsLower first.toList) (jsLower middle.toList)
      hFlowne hMlowne (fun c hc => (hFlowp c hc).1) (fun c hc => (hMlowp c hc).1)
    have hcont : (jsLower last.toList ++
        (',' :: ' ' :: (jsLower first.toList ++ (' ' :: jsLower middle.toList)))).contains
        ',' = true :=
      List.elem_eq_true_of_mem (List.mem_append.mpr (Or.inr (List.mem_cons_self _ _)))
    unfold RosterCompare.parseName
    rw [hnorm]
    simp only [String.toList, hcont]
    simp only [String.toList] at hsplitRaw htrimL htrimR
    simp [hsplitRaw, htrimL, htrimR]

/-- Witness for C3 (amended): the universal comma-handling statements
instantiated at the spec's example tokens `"Doe"`, `"John"`, `"Michael"`. -/
theorem claim3_amended_witness :
    normalizeName ("Doe" ++ ", " ++ "John" ++ " " ++ "Michael") =
      String.mk (jsLower "John".toList ++ (' ' :: jsLower "Doe".toList)) ∧
    RosterCompare.parseName ("Doe" ++ ", " ++ "John" ++ " " ++ "Michael") =
      { first := String.mk (jsLower "John".toList ++ (' ' :: jsLower "Michael".toList)),
        last := String.mk (jsLower "Doe".toList),
        full := String.mk ((jsLower "John".toList ++ (' ' :: jsLower "Michael".toList)) ++
          (' ' :: jsLower "Doe".toList)) } :=
  ⟨claim3_amended.1 "Doe" "John" "Michael" (by decide) (by decide) (by decide),
   claim3_amended.2.1 "Doe" "John" "Michael" (by decide) (by decide) (by decide)⟩
